import Mathlib

/-
Verification of the super-glue core container (lib/linked_list.c and
lib/hash_table.c) against its natural-language specification.

The C code is shallowly embedded:
  * a `LinkedList` is its sequence of payloads together with the separately
    maintained `num_elems` bookkeeping field (a C `int`, modelled as `Int`);
  * an `LLIterator` holds the list it walks and the index of the node its
    `current` pointer designates (`none` models a NULL `current`);
  * machine 64-bit arithmetic in the FNV-1a hash is `Nat` arithmetic taken
    `% 2^64` at each step;
  * byte buffers (keys) are `List Nat`; a pointer argument is modelled by the
    list of bytes that are legally accessible from it, so reading past the
    end of the buffer has no model and the operation returns `none`;
  * fallible C functions return `Option`: `none` models either the documented
    NULL/false result or undefined behaviour, as noted at each definition.

Allocation is modelled as succeeding; the source's handling of malloc
failure is discussed where the specification claims demand it.
-/

namespace SuperGlue

set_option maxHeartbeats 1000000

/-! ### List helper lemmas -/

theorem sg_drop_eq_get_cons {α : Type} : ∀ (l : List α) (i : Nat) (h : i < l.length),
    l.drop i = l.get ⟨i, h⟩ :: l.drop (i + 1)
  | _ :: _, 0, _ => rfl
  | _ :: xs, i + 1, h => by
    have := sg_drop_eq_get_cons xs i (Nat.lt_of_succ_lt_succ h)
    simp only [List.drop_succ_cons, List.get_cons_succ]
    exact this

theorem sg_set_eq_take_cons_drop {α : Type} : ∀ (l : List α) (i : Nat) (x : α),
    i < l.length → l.set i x = l.take i ++ x :: l.drop (i + 1)
  | _ :: _, 0, _, _ => rfl
  | y :: xs, i + 1, x, h => by
    simpa using sg_set_eq_take_cons_drop xs i x (Nat.lt_of_succ_lt_succ h)

theorem sg_take_cons_drop {α : Type} (l : List α) (i : Nat) (h : i < l.length) :
    l.take i ++ l.get ⟨i, h⟩ :: l.drop (i + 1) = l := by
  conv_rhs => rw [← List.take_append_drop i l]
  rw [sg_drop_eq_get_cons l i h]

theorem sg_length_eraseIdx {α : Type} (l : List α) (i : Nat) (h : i < l.length) :
    (l.eraseIdx i).length = l.length - 1 := by
  rw [List.eraseIdx_eq_take_drop_succ]
  simp [List.length_take, List.length_drop]
  omega

theorem sg_eraseIdx_last {α : Type} : ∀ (l : List α), l ≠ [] →
    l.eraseIdx (l.length - 1) = l.dropLast
  | [_], _ => rfl
  | x :: y :: xs, _ => by
    have ih := sg_eraseIdx_last (y :: xs) (by simp)
    simp only [List.length_cons] at ih ⊢
    simp only [Nat.add_sub_cancel] at ih ⊢
    simpa [List.eraseIdx] using ih

theorem sg_get?_set_eq {α : Type} : ∀ (l : List α) (i : Nat) (x : α), i < l.length →
    (l.set i x).get? i = some x
  | _ :: _, 0, _, _ => rfl
  | _ :: xs, i + 1, x, h => by
    simpa using sg_get?_set_eq xs i x (Nat.lt_of_succ_lt_succ h)

theorem sg_get?_set_ne {α : Type} : ∀ (l : List α) (i j : Nat) (x : α), i ≠ j →
    (l.set i x).get? j = l.get? j
  | [], _, _, _, _ => by simp
  | _ :: _, 0, 0, _, h => absurd rfl h
  | _ :: _, 0, _ + 1, _, _ => rfl
  | _ :: _, _ + 1, 0, _, _ => rfl
  | _ :: xs, i + 1, j + 1, x, h => by
    simpa using sg_get?_set_ne xs i j x (fun hc => h (by omega))

theorem sg_not_mem_eraseIdx_of_nodup {α : Type} : ∀ (l : List α) (i : Nat) (h : i < l.length),
    l.Nodup → l.get ⟨i, h⟩ ∉ l.eraseIdx i
  | x :: xs, 0, _, hnd => by
    simp only [List.nodup_cons] at hnd
    simpa [List.eraseIdx] using hnd.1
  | x :: xs, i + 1, h, hnd => by
    simp only [List.nodup_cons] at hnd
    have ih := sg_not_mem_eraseIdx_of_nodup xs i (Nat.lt_of_succ_lt_succ h) hnd.2
    have hget : xs.get ⟨i, Nat.lt_of_succ_lt_succ h⟩ ∈ xs := List.get_mem _ _ _
    intro hmem
    simp only [List.eraseIdx, List.get_cons_succ, List.mem_cons] at hmem
    rcases hmem with hmem | hmem
    · exact hnd.1 (hmem ▸ hget)
    · exact ih hmem

theorem sg_mem_eraseIdx {α : Type} (l : List α) (i : Nat) (x : α)
    (h : x ∈ l.eraseIdx i) : x ∈ l :=
  (List.eraseIdx_sublist l i).subset h

/-! ### FNV-1a (64-bit) hash, from `FNV1a_64bit` in hash_table.c -/

abbrev Byte := Nat

def U64 : Nat := 2 ^ 64

def FNV_PRIME : Nat := 0x00000100000001B3

def FNV_INIT : Nat := 0xcbf29ce484222325

/-- One loop iteration of `FNV1a_64bit`: `hash ^= *current; hash *= FNV_PRIME;`
with `uint64_t` overflow made explicit. -/
def fnv_step (h b : Nat) : Nat := ((h ^^^ b) * FNV_PRIME) % U64

/-- `FNV1a_64bit(data, data_len)`: folds `fnv_step` over the bytes read from
the buffer, starting from the standard offset basis. -/
def FNV1a_64bit (data : List Byte) : Nat := data.foldl fnv_step FNV_INIT

/-! ### LinkedList (lib/linked_list.c)

`elems` is the payload sequence from head to tail; `num_elems` mirrors the
`int num_elems` field that the C code maintains by hand.  The head, tail and
node links of the C structure are recovered from the sequence. -/

structure LinkedList (α : Type) where
  elems : List α
  num_elems : Int
  deriving DecidableEq, Repr

/-- `LinkedList_allocate`: an empty list (allocation modelled as succeeding). -/
def LinkedList_allocate (α : Type) : LinkedList α := ⟨[], 0⟩

/-- `LinkedList_num_elements`: `-1` for a NULL list, else the bookkeeping field. -/
def LinkedList_num_elements {α : Type} (l : Option (LinkedList α)) : Int :=
  match l with
  | none => -1
  | some l => l.num_elems

/-- `LinkedList_prepend`: pushes a payload at the head and increments
`num_elems` (the node allocation is modelled as succeeding). -/
def LinkedList_prepend {α : Type} (l : LinkedList α) (p : α) : LinkedList α :=
  ⟨p :: l.elems, l.num_elems + 1⟩

/-- `LinkedList_pop_head`: fails (`none`) when `num_elems == 0`; otherwise
removes the head node and returns its payload.  The inner `none` arm models
the undefined dereference of a NULL `head` that the C code would perform if
`num_elems` disagreed with the actual chain. -/
def LinkedList_pop_head {α : Type} (l : LinkedList α) : Option (α × LinkedList α) :=
  if l.num_elems = 0 then none
  else
    match l.elems with
    | [] => none
    | p :: rest => some (p, ⟨rest, l.num_elems - 1⟩)

/-- `LinkedList_pop_tail`: symmetric to `LinkedList_pop_head` at the tail. -/
def LinkedList_pop_tail {α : Type} (l : LinkedList α) : Option (α × LinkedList α) :=
  if l.num_elems = 0 then none
  else
    match l.elems.getLast? with
    | none => none
    | some p => some (p, ⟨l.elems.dropLast, l.num_elems - 1⟩)

/-! ### LLIterator (lib/linked_list.c)

`current` is the index of the node the C iterator's `current` pointer
designates; `none` models a NULL `current`. -/

structure LLIterator (α : Type) where
  list : LinkedList α
  current : Option Nat
  deriving DecidableEq, Repr

/-- `LLIterator_allocate`: positions `current` at the head node (`none` for an
empty list). -/
def LLIterator_allocate {α : Type} (l : LinkedList α) : LLIterator α :=
  ⟨l, if l.elems.isEmpty then none else some 0⟩

/-- `LLIterator_is_valid`: true iff `current` is not NULL. -/
def LLIterator_is_valid {α : Type} (it : LLIterator α) : Bool :=
  it.current.isSome

/-- `LLIterator_get`: the payload of the current node, NULL (`none`) when the
iterator is invalid. -/
def LLIterator_get {α : Type} (it : LLIterator α) : Option α :=
  match it.current with
  | none => none
  | some i => it.list.elems.get? i

/-- `LLIterator_next`: `current = current->next`; returns whether the iterator
is still valid, together with the moved iterator. -/
def LLIterator_next {α : Type} (it : LLIterator α) : Bool × LLIterator α :=
  match it.current with
  | none => (false, it)
  | some i =>
    let c : Option Nat := if i + 1 < it.list.elems.length then some (i + 1) else none
    (c.isSome, ⟨it.list, c⟩)

/-- `LLIterator_remove it slot`: `slot` is whether a non-NULL `payload_out`
was supplied.  Returns `none` exactly when the C function returns false
without mutating the list (NULL output slot or NULL `current`); on success
returns the removed payload and the updated iterator (which carries the
mutated list).  The three branches mirror the C code: current at the head
(`pop_head`, cursor moves to the new head), current at the tail of a longer
list (`pop_tail`, cursor moves to the new tail), and the interior case
(stitching the neighbours together, cursor moves to the former successor).
The unreachable `none` arms under the pops model the undefined behaviour a
list with corrupted bookkeeping would produce. -/
def LLIterator_remove {α : Type} (it : LLIterator α) (slot : Bool) :
    Option (α × LLIterator α) :=
  if slot = false then none
  else
    match it.current with
    | none => none
    | some i =>
      let l := it.list
      if i = 0 then
        match LinkedList_pop_head l with
        | none => none
        | some (p, l') => some (p, ⟨l', if l'.elems.isEmpty then none else some 0⟩)
      else if i = l.elems.length - 1 then
        match LinkedList_pop_tail l with
        | none => none
        | some (p, l') =>
          some (p, ⟨l', if l'.elems.isEmpty then none else some (l'.elems.length - 1)⟩)
      else
        match l.elems.get? i with
        | none => none
        | some p => some (p, ⟨⟨l.elems.eraseIdx i, l.num_elems - 1⟩, some i⟩)

/-- The bookkeeping invariant the C list code maintains: the `num_elems`
field counts the nodes actually in the chain. -/
def LWF {α : Type} (l : LinkedList α) : Prop :=
  l.num_elems = (l.elems.length : Int)

instance {α : Type} (l : LinkedList α) : Decidable (LWF l) := by
  unfold LWF; infer_instance

theorem LWF_allocate {α : Type} : LWF (LinkedList_allocate α) := by
  simp [LWF, LinkedList_allocate]

theorem LWF_prepend {α : Type} (l : LinkedList α) (p : α) (h : LWF l) :
    LWF (LinkedList_prepend l p) := by
  simp [LWF, LinkedList_prepend] at h ⊢
  omega

theorem pop_head_cons {α : Type} (l : LinkedList α) (p : α) (rest : List α)
    (hwf : LWF l) (he : l.elems = p :: rest) :
    LinkedList_pop_head l = some (p, ⟨rest, l.num_elems - 1⟩) := by
  have hne : l.num_elems ≠ 0 := by
    rw [LWF, he] at hwf; simp at hwf; omega
  simp [LinkedList_pop_head, hne, he]

theorem pop_tail_snoc {α : Type} (l : LinkedList α)
    (hwf : LWF l) (hne : l.elems ≠ []) :
    LinkedList_pop_tail l =
      some (l.elems.getLast (by exact hne), ⟨l.elems.dropLast, l.num_elems - 1⟩) := by
  have hn : l.num_elems ≠ 0 := by
    rw [LWF] at hwf
    have : l.elems.length ≠ 0 := fun hc => hne (List.length_eq_zero.mp hc)
    omega
  simp [LinkedList_pop_tail, hn, List.getLast?_eq_getLast _ hne]

/-- Removal through a validly positioned cursor always erases exactly the
designated index and decrements the bookkeeping count; the proof is a case
split over the head/tail/interior branches. -/
theorem ll_remove_list_shape {α : Type} (l : LinkedList α) (i : Nat)
    (hwf : LWF l) (hi : i < l.elems.length) :
    ∃ cur, LLIterator_remove ⟨l, some i⟩ true =
      some (l.elems.get ⟨i, hi⟩, ⟨⟨l.elems.eraseIdx i, l.num_elems - 1⟩, cur⟩) := by
  unfold LLIterator_remove
  simp only [Bool.true_eq_false, if_false]
  by_cases h0 : i = 0
  · subst h0
    obtain ⟨p, rest, he⟩ : ∃ p rest, l.elems = p :: rest := by
      cases hel : l.elems with
      | nil => rw [hel] at hi; simp at hi
      | cons p rest => exact ⟨p, rest, rfl⟩
    rw [pop_head_cons l p rest hwf he]
    refine ⟨if rest.isEmpty then none else some 0, ?_⟩
    simp [he, List.eraseIdx]
  · by_cases hlast : i = l.elems.length - 1
    · have hne : l.elems ≠ [] := by
        intro hc; rw [hc] at hi; simp at hi
      refine ⟨if l.elems.dropLast.isEmpty then none
              else some (l.elems.dropLast.length - 1), ?_⟩
      rw [if_neg h0, if_pos hlast, pop_tail_snoc l hwf hne]
      have hg : l.elems.getLast hne = l.elems.get ⟨i, hi⟩ := by
        rw [List.getLast_eq_getElem, List.get_eq_getElem]
        congr 1
        simp only [hlast]
      have her : l.elems.eraseIdx i = l.elems.dropLast := by
        rw [hlast]
        exact sg_eraseIdx_last l.elems hne
      rw [hg, her]
    · rw [if_neg h0, if_neg hlast]
      have : l.elems.get? i = some (l.elems.get ⟨i, hi⟩) := List.get?_eq_get hi
      rw [this]
      exact ⟨some i, rfl⟩

theorem LWF_remove {α : Type} (l : LinkedList α) (i : Nat)
    (hwf : LWF l) (hi : i < l.elems.length) :
    LWF ⟨l.elems.eraseIdx i, l.num_elems - 1⟩ := by
  rw [LWF] at hwf ⊢
  simp only [sg_length_eraseIdx l.elems i hi]
  omega

/-! ### HashTable data model (lib/hash_table.c)

An `HTEntry` owns a heap copy of exactly `key_len` bytes of key material, so
the stored key is modelled as the byte list `key` and the stored `key_len`
field is `key.length` by construction.  The value is the caller's opaque
handle, a type parameter `V`.  A `HashTable` owns the bucket array and the
running `int num_elems` counter; the `num_buckets` field of the C struct is
set once to the array's length (8) and never changed, so it is modelled as
`buckets.length`. -/

structure HTEntry (V : Type) where
  hash : Nat
  key : List Byte
  value : V
  deriving DecidableEq, Repr

structure HashTable (V : Type) where
  buckets : List (LinkedList (HTEntry V))
  num_elems : Int
  deriving DecidableEq, Repr

/-- `DEFAULT_BUCKETS` in hash_table.c. -/
def DEFAULT_BUCKETS : Nat := 8

/-- `HashTable_allocate`: 8 freshly allocated empty buckets and a zero count
(allocation modelled as succeeding). -/
def HashTable_allocate (V : Type) : HashTable V :=
  ⟨List.replicate DEFAULT_BUCKETS (LinkedList_allocate (HTEntry V)), 0⟩

/-- `HashTable_num_elements`: `-1` for a NULL table. -/
def HashTable_num_elements {V : Type} (t : Option (HashTable V)) : Int :=
  match t with
  | none => -1
  | some t => t.num_elems

/-- The terminator scan inside `get_true_key_len`: the number of bytes before
the first zero byte of the accessible buffer, or `none` when the buffer holds
no zero byte, in which case the C loop reads past the end of the buffer
(undefined behaviour). -/
def scan_strlen : List Byte → Option Nat
  | [] => none
  | b :: rest => if b = 0 then some 0 else (scan_strlen rest).map (· + 1)

/-- `get_true_key_len`: `key_len == 0` is the "NUL-terminated string" sentinel
and triggers the terminator scan; any other length is passed through. -/
def get_true_key_len (key : List Byte) (key_len : Nat) : Option Nat :=
  if key_len = 0 then scan_strlen key else some key_len

/-- The key bytes a table operation actually reads: `true_key_len` bytes from
the caller's buffer.  `none` models the undefined reads the C code performs
when the sentinel scan runs off the buffer or when the caller's `key_len`
exceeds the accessible bytes. -/
def normalizeKey (key : List Byte) (key_len : Nat) : Option (List Byte) :=
  match get_true_key_len key key_len with
  | none => none
  | some n => if n ≤ key.length then some (key.take n) else none

/-- The per-entry test of `advance_to_target` (with `COLLISION_RESIST`
enabled, its default): hash equality first, then stored length and a
`memcmp` over the key bytes. -/
def entry_matches {V : Type} (e : HTEntry V) (h : Nat) (kb : List Byte) : Bool :=
  e.hash == h && (e.key.length == kb.length && e.key == kb)

/-- `advance_to_target`: the index of the first entry of the chain (scanned
from the head, as the freshly allocated `LLIterator` does) matching the probe,
or `none` when the scan exhausts the chain. -/
def advance_to_target {V : Type} : List (HTEntry V) → Nat → List Byte → Option Nat
  | [], _, _ => none
  | e :: rest, h, kb =>
    if entry_matches e h kb then some 0
    else (advance_to_target rest h kb).map (· + 1)

/-- The lookup steps shared verbatim by `HashTable_insert`, `HashTable_find`
and `HashTable_remove`: normalize the key length, hash the key bytes, select
the bucket `hash % num_buckets`, scan the chain.  Outer `none` is undefined
behaviour (bad key argument or an impossible bucket index); inner `none` is
"not found"; otherwise the bucket index and the chain index of the match. -/
def HashTable_lookup {V : Type} (t : HashTable V) (key : List Byte) (key_len : Nat) :
    Option (Option (Nat × Nat)) :=
  match normalizeKey key key_len with
  | none => none
  | some kb =>
    match t.buckets.get? (FNV1a_64bit kb % t.buckets.length) with
    | none => none
    | some bucket =>
      match advance_to_target bucket.elems (FNV1a_64bit kb) kb with
      | none => some none
      | some i => some (some (FNV1a_64bit kb % t.buckets.length, i))

/-- `HashTable_insert t key key_len v slot` (`slot` is whether a non-NULL
`old_value` out-parameter was supplied; the NULL-table/key rejection lives in
`HashTable_insert_c`).  Returns `none` for undefined behaviour, otherwise
`(found, written, t')` where `written` is what was stored through
`old_value`.  On a hit the pre-existing entry is removed through an
`LLIterator` positioned on it, then the new entry is prepended to the bucket;
`num_elems` grows only when the key was absent. -/
def HashTable_insert {V : Type} (t : HashTable V) (key : List Byte) (key_len : Nat)
    (v : V) (slot : Bool) : Option (Bool × Option V × HashTable V) :=
  match normalizeKey key key_len with
  | none => none
  | some kb =>
    match t.buckets.get? (FNV1a_64bit kb % t.buckets.length) with
    | none => none
    | some bucket =>
      match advance_to_target bucket.elems (FNV1a_64bit kb) kb with
      | some i =>
        match LLIterator_remove ⟨bucket, some i⟩ true with
        | none => none
        | some (oldEntry, it) =>
          some (true, if slot then some oldEntry.value else none,
            ⟨t.buckets.set (FNV1a_64bit kb % t.buckets.length)
              (LinkedList_prepend it.list ⟨FNV1a_64bit kb, kb, v⟩), t.num_elems⟩)
      | none =>
        some (false, none,
          ⟨t.buckets.set (FNV1a_64bit kb % t.buckets.length)
            (LinkedList_prepend bucket ⟨FNV1a_64bit kb, kb, v⟩), t.num_elems + 1⟩)

/-- `HashTable_find`: never mutates; returns `some none` for "not found" (the
C NULL result) and `some (some v)` for the value of the matching entry. -/
def HashTable_find {V : Type} (t : HashTable V) (key : List Byte) (key_len : Nat) :
    Option (Option V) :=
  match normalizeKey key key_len with
  | none => none
  | some kb =>
    match t.buckets.get? (FNV1a_64bit kb % t.buckets.length) with
    | none => none
    | some bucket =>
      match advance_to_target bucket.elems (FNV1a_64bit kb) kb with
      | none => some none
      | some i =>
        match bucket.elems.get? i with
        | none => none
        | some e => some (some e.value)

/-- `HashTable_remove t key key_len slot`.  The C function checks the table
and key for NULL but never checks `old_value`: on a miss the unchecked slot
is irrelevant and it returns false, but on a hit it executes
`*old_value = old_entry->value` — with `slot = false` that dereferences NULL
after the bucket has already been mutated, which the model folds into the
undefined-behaviour result `none`. -/
def HashTable_remove {V : Type} (t : HashTable V) (key : List Byte) (key_len : Nat)
    (slot : Bool) : Option (Bool × Option V × HashTable V) :=
  match normalizeKey key key_len with
  | none => none
  | some kb =>
    match t.buckets.get? (FNV1a_64bit kb % t.buckets.length) with
    | none => none
    | some bucket =>
      match advance_to_target bucket.elems (FNV1a_64bit kb) kb with
      | none => some (false, none, t)
      | some i =>
        match LLIterator_remove ⟨bucket, some i⟩ true with
        | none => none
        | some (oldEntry, it) =>
          if slot then
            some (true, some oldEntry.value,
              ⟨t.buckets.set (FNV1a_64bit kb % t.buckets.length) it.list,
                t.num_elems - 1⟩)
          else none

/-- `HashTable_insert` including the leading NULL-argument rejection
(`if (ht == NULL || key == NULL) return false;`). -/
def HashTable_insert_c {V : Type} (t : Option (HashTable V)) (key : Option (List Byte))
    (key_len : Nat) (v : V) (slot : Bool) :
    Option (Bool × Option V × Option (HashTable V)) :=
  match t, key with
  | some t, some k =>
    (HashTable_insert t k key_len v slot).map (fun r => (r.1, r.2.1, some r.2.2))
  | _, _ => some (false, none, t)

/-- `HashTable_find` including the NULL-argument rejection (C returns NULL,
which coincides with the not-found result). -/
def HashTable_find_c {V : Type} (t : Option (HashTable V)) (key : Option (List Byte))
    (key_len : Nat) : Option (Option V) :=
  match t, key with
  | some t, some k => HashTable_find t k key_len
  | _, _ => some none

/-- `HashTable_remove` including the NULL-argument rejection. -/
def HashTable_remove_c {V : Type} (t : Option (HashTable V)) (key : Option (List Byte))
    (key_len : Nat) (slot : Bool) :
    Option (Bool × Option V × Option (HashTable V)) :=
  match t, key with
  | some t, some k =>
    (HashTable_remove t k key_len slot).map (fun r => (r.1, r.2.1, some r.2.2))
  | _, _ => some (false, none, t)

/-- All entries of the table, bucket by bucket. -/
def HashTable_entries {V : Type} (t : HashTable V) : List (HTEntry V) :=
  (t.buckets.map (·.elems)).flatten

/-! ### HTIterator (lib/hash_table.c)

The C struct is `{ LLIterator *bucket_iter; HashTable *table; int bucket_idx; }`.
`bucket_iter` is `none` for a NULL pointer and otherwise carries the inner
iterator's current index (itself `none` for a NULL `current`).  `table` and
`bucket_idx` are `none` when the field was never written: `HTIterator_allocate`
returns early on an empty table without initialising them, and reading such a
field is undefined behaviour.  Because the C iterator aliases the table it
walks, every mutating model operation returns the updated iterator whose
`table` field is the updated table. -/

structure HTIterator (V : Type) where
  bucket_iter : Option (Option Nat)
  table : Option (HashTable V)
  bucket_idx : Option Nat
  deriving DecidableEq, Repr

/-- The bucket scan of `HTIterator_allocate` and `HTIterator_next`: the first
index `j ≥ i` (tracking the original indices of the dropped prefix) whose
bucket chain is non-empty. -/
def fnb_aux {V : Type} : List (LinkedList (HTEntry V)) → Nat → Option Nat
  | [], _ => none
  | b :: rest, i => if b.elems.isEmpty then fnb_aux rest (i + 1) else some i

def first_nonempty_from {V : Type} (bs : List (LinkedList (HTEntry V))) (start : Nat) :
    Option Nat :=
  fnb_aux (bs.drop start) start

/-- `HTIterator_allocate` (NULL-table rejection omitted; allocation modelled
as succeeding).  On an empty table the C code sets only `bucket_iter = NULL`
and returns, leaving `table` and `bucket_idx` uninitialised.  Otherwise the
do-while loop scans for the first non-empty bucket; it has no bounds check,
so a table whose counter is positive while every bucket is empty would drive
it past the bucket array (`none`, undefined behaviour). -/
def HTIterator_allocate {V : Type} (t : HashTable V) : Option (HTIterator V) :=
  if t.num_elems = 0 then some ⟨none, none, none⟩
  else
    match first_nonempty_from t.buckets 0 with
    | some j => some ⟨some (some 0), some t, some j⟩
    | none => none

/-- `HTIterator_is_valid`: reads `hti->table->num_elems` before looking at
`bucket_iter`, so an iterator whose `table` field was never initialised (the
empty-table iterator) makes it dereference an indeterminate pointer —
undefined behaviour, modelled as `none`.  Note the inner ListCursor's own
validity is not consulted. -/
def HTIterator_is_valid {V : Type} (it : HTIterator V) : Option Bool :=
  match it.table with
  | none => none
  | some t => if t.num_elems = 0 then some false else some it.bucket_iter.isSome

/-- `HTIterator_next`: advances the inner iterator; on exhaustion of the
current bucket, scans forward for the next non-empty bucket and rebinds a
fresh inner iterator at its head, or becomes invalid (`bucket_iter = NULL`,
`bucket_idx` left at the last index) when none remains.  Returns the C
boolean result together with the updated iterator. -/
def HTIterator_next {V : Type} (it : HTIterator V) : Option (Bool × HTIterator V) :=
  match HTIterator_is_valid it with
  | none => none
  | some false => some (false, it)
  | some true =>
    match it.table, it.bucket_iter, it.bucket_idx with
    | some t, some cur, some b =>
      match t.buckets.get? b with
      | none => none
      | some bucket =>
        let cur' : Option Nat :=
          match cur with
          | none => none
          | some c => if c + 1 < bucket.elems.length then some (c + 1) else none
        match cur' with
        | some c' => some (true, ⟨some (some c'), some t, some b⟩)
        | none =>
          match first_nonempty_from t.buckets (b + 1) with
          | some j => some (true, ⟨some (some 0), some t, some j⟩)
          | none => some (false, ⟨none, some t, some (t.buckets.length - 1)⟩)
    | _, _, _ => none

/-- `HTIterator_get`: projects the current entry's key pointer, stored key
length and value.  Outer `none` is undefined behaviour (including the case
where `HTIterator_is_valid` passed but the inner cursor is NULL, making the C
code dereference `LLIterator_get`'s NULL result); `some none` is the false
return. -/
def HTIterator_get {V : Type} (it : HTIterator V) :
    Option (Option (List Byte × Nat × V)) :=
  match HTIterator_is_valid it with
  | none => none
  | some false => some none
  | some true =>
    match it.table, it.bucket_iter, it.bucket_idx with
    | some t, some (some c), some b =>
      match t.buckets.get? b with
      | none => none
      | some bucket =>
        match bucket.elems.get? c with
        | none => none
        | some e => some (some (e.key, e.key.length, e.value))
    | _, _, _ => none

/-- `HTIterator_remove it value_slot`: captures the current entry's stored key
pointer and length, advances per `HTIterator_next`, then calls
`HashTable_remove` on the table with that stored key — re-deriving the key
length through the `key_len == 0` sentinel, so an entry stored with an empty
key sends the terminator scan past its zero-byte key copy (undefined
behaviour).  The value slot passed down to `HashTable_remove` is always
non-NULL (`&ignored` when the caller's `value_out` is NULL), and the boolean
result of `HashTable_remove` is ignored.  The inner cursor survives the
removal in C because it holds a node pointer and the removed node is never
the one it designates; in this index model that pointer stability appears as
the index adjustment at the end: erasing an entry at a smaller index of the
same bucket shifts the designated node's index down by one.  (Erasing the
designated node itself would leave the C pointer dangling; that case cannot
arise for a table whose buckets hold no duplicate keys, and the model then
leaves the index unchanged.)  Result: `none` for undefined behaviour,
`some none` for the false return, otherwise the key data, the value passed
through `value_out`, and the advanced iterator carrying the mutated table. -/
def HTIterator_remove {V : Type} (it : HTIterator V) (value_slot : Bool) :
    Option (Option ((List Byte × Nat) × Option V × HTIterator V)) :=
  match HTIterator_is_valid it with
  | none => none
  | some false => some none
  | some true =>
    match HTIterator_get it with
    | none => none
    | some none => some none
    | some (some (key, key_len, _)) =>
      match HTIterator_next it with
      | none => none
      | some (_, it₁) =>
        match it₁.table with
        | none => none
        | some t =>
          match HashTable_remove t key key_len true with
          | none => none
          | some (found, w, t') =>
            let bi : Option (Option Nat) :=
              match it₁.bucket_iter with
              | none => none
              | some none => some none
              | some (some c) =>
                if found then
                  match HashTable_lookup t key key_len, it₁.bucket_idx with
                  | some (some (rb, j)), some b =>
                    if rb = b ∧ j < c then some (some (c - 1)) else some (some c)
                  | _, _ => some (some c)
                else some (some c)
            some (some ((key, key_len), (if value_slot then w else none),
              ⟨bi, some t', it₁.bucket_idx⟩))

/-- The canonical read-only iteration loop
`for (it = allocate(t); is_valid(it); next(it)) get(it)`, with enough fuel.
Collects, per visited entry, the iterator's bucket index and the projected
key/key-length/value.  `none` propagates undefined behaviour of any step. -/
def HTIterator_traverse {V : Type} : Nat → HTIterator V →
    Option (List (Nat × List Byte × Nat × V))
  | 0, _ => some []
  | fuel + 1, it =>
    match HTIterator_is_valid it with
    | none => none
    | some false => some []
    | some true =>
      match HTIterator_get it, it.bucket_idx with
      | some (some out), some b =>
        match HTIterator_next it with
        | none => none
        | some (_, it') =>
          match HTIterator_traverse fuel it' with
          | none => none
          | some rest => some ((b, out) :: rest)
      | _, _ => none

/-- The destructive iteration loop `while (HTIterator_remove(it, ...)) ;`
with enough fuel: repeatedly removes at the cursor until the call reports
failure (an invalid cursor).  Collects the removed key/key-length/value
data and returns the final iterator (whose `table` field is the final
table). -/
def HTIterator_drain {V : Type} : Nat → HTIterator V →
    Option (List ((List Byte × Nat) × Option V) × HTIterator V)
  | 0, it => some ([], it)
  | fuel + 1, it =>
    match HTIterator_remove it true with
    | none => none
    | some none => some ([], it)
    | some (some (out, w, it')) =>
      match HTIterator_drain fuel it' with
      | none => none
      | some (rest, itf) => some ((out, w) :: rest, itf)

/-! ### Specification lemmas for the lookup helpers -/

theorem scan_strlen_lt : ∀ (k : List Byte) (n : Nat), scan_strlen k = some n →
    n < k.length
  | [], _, h => by simp [scan_strlen] at h
  | b :: rest, n, h => by
    by_cases hb : b = 0
    · simp [scan_strlen, hb] at h
      simp only [List.length_cons]
      omega
    · simp only [scan_strlen, if_neg hb] at h
      cases hs : scan_strlen rest with
      | none => simp [hs] at h
      | some m =>
        rw [hs] at h
        simp only [Option.map_some', Option.some.injEq] at h
        have := scan_strlen_lt rest m hs
        simp only [List.length_cons]
        omega

theorem scan_strlen_take : ∀ (k : List Byte) (n : Nat), scan_strlen k = some n →
    (0 : Byte) ∉ k.take n
  | [], _, h => by simp [scan_strlen] at h
  | b :: rest, n, h => by
    by_cases hb : b = 0
    · simp [scan_strlen, hb] at h
      simp [← h]
    · simp only [scan_strlen, if_neg hb] at h
      cases hs : scan_strlen rest with
      | none => simp [hs] at h
      | some m =>
        rw [hs] at h
        simp only [Option.map_some', Option.some.injEq] at h
        have ih := scan_strlen_take rest m hs
        rw [← h]
        simp only [List.take_succ_cons, List.mem_cons, not_or]
        exact ⟨fun hc => hb hc.symm, ih⟩

theorem normalizeKey_zero (key : List Byte) (n : Nat) (h : scan_strlen key = some n) :
    normalizeKey key 0 = some (key.take n) := by
  have hlt := scan_strlen_lt key n h
  simp [normalizeKey, get_true_key_len, h, Nat.le_of_lt hlt]

theorem normalizeKey_pos (key : List Byte) (n : Nat) (hn : n ≠ 0) (hle : n ≤ key.length) :
    normalizeKey key n = some (key.take n) := by
  simp [normalizeKey, get_true_key_len, hn, hle]

theorem normalizeKey_stored (k : List Byte) (hk : k ≠ []) :
    normalizeKey k k.length = some k := by
  have hn : k.length ≠ 0 := fun hc => hk (List.length_eq_zero.mp hc)
  rw [normalizeKey_pos k k.length hn (Nat.le_refl _), List.take_length]

theorem entry_matches_iff {V : Type} (e : HTEntry V) (h : Nat) (kb : List Byte) :
    entry_matches e h kb = true ↔ e.hash = h ∧ e.key = kb := by
  unfold entry_matches
  constructor
  · intro hm
    simp only [Bool.and_eq_true, beq_iff_eq] at hm
    exact ⟨hm.1, hm.2.2⟩
  · rintro ⟨h1, h2⟩
    simp [h1, h2]

theorem entry_matches_self {V : Type} (h : Nat) (kb : List Byte) (v : V) :
    entry_matches ⟨h, kb, v⟩ h kb = true := by
  simp [entry_matches]

theorem att_eq_none_iff {V : Type} : ∀ (l : List (HTEntry V)) (h : Nat) (kb : List Byte),
    (advance_to_target l h kb = none ↔ ∀ e ∈ l, entry_matches e h kb = false)
  | [], h, kb => by simp [advance_to_target]
  | e :: rest, h, kb => by
    by_cases hm : entry_matches e h kb
    · simp [advance_to_target, hm]
    · simp only [advance_to_target, if_neg hm, Option.map_eq_none', List.mem_cons]
      rw [att_eq_none_iff rest h kb]
      constructor
      · intro hall e' he'
        rcases he' with he' | he'
        · rw [he']; exact Bool.eq_false_iff.mpr hm
        · exact hall e' he'
      · intro hall e' he'
        exact hall e' (Or.inr he')

theorem att_eq_some {V : Type} : ∀ (l : List (HTEntry V)) (h : Nat) (kb : List Byte) (i : Nat),
    advance_to_target l h kb = some i →
    ∃ hi : i < l.length, entry_matches (l.get ⟨i, hi⟩) h kb = true ∧
      ∀ e ∈ l.take i, entry_matches e h kb = false
  | [], h, kb, i, hadv => by simp [advance_to_target] at hadv
  | e :: rest, h, kb, i, hadv => by
    by_cases hm : entry_matches e h kb
    · simp only [advance_to_target, if_pos hm] at hadv
      cases hadv
      exact ⟨by simp, by simpa using hm, by simp⟩
    · simp only [advance_to_target, if_neg hm] at hadv
      cases hr : advance_to_target rest h kb with
      | none => simp [hr] at hadv
      | some i' =>
        rw [hr] at hadv
        simp only [Option.map_some', Option.some.injEq] at hadv
        obtain ⟨hi', hmat, hpre⟩ := att_eq_some rest h kb i' hr
        subst hadv
        refine ⟨by simp only [List.length_cons]; omega, ?_, ?_⟩
        · exact hmat
        · simp only [List.take_succ_cons, List.mem_cons]
          intro e' he'
          rcases he' with he' | he'
          · rw [he']; exact Bool.eq_false_iff.mpr hm
          · exact hpre e' he'

theorem att_cons_true {V : Type} (e : HTEntry V) (rest : List (HTEntry V)) (h : Nat)
    (kb : List Byte) (hm : entry_matches e h kb = true) :
    advance_to_target (e :: rest) h kb = some 0 := by
  simp [advance_to_target, hm]

theorem fnb_aux_some {V : Type} : ∀ (bs : List (LinkedList (HTEntry V))) (s j : Nat),
    fnb_aux bs s = some j →
    s ≤ j ∧ j - s < bs.length ∧
      (∀ b, bs.get? (j - s) = some b → b.elems ≠ []) ∧
      (∀ k, k < j - s → ∀ bk, bs.get? k = some bk → bk.elems = [])
  | [], s, j, h => by simp [fnb_aux] at h
  | b :: rest, s, j, h => by
    by_cases hb : b.elems.isEmpty
    · simp only [fnb_aux, if_pos hb] at h
      obtain ⟨hle, hlt, hne, hpre⟩ := fnb_aux_some rest (s + 1) j h
      have hjs : j - s = (j - (s + 1)) + 1 := by omega
      refine ⟨by omega, by simp; omega, ?_, ?_⟩
      · intro b' hb'
        rw [hjs] at hb'
        simp only [List.get?_cons_succ] at hb'
        exact hne b' hb'
      · intro k hk bk hbk
        rw [hjs] at hk
        cases k with
        | zero =>
          simp only [List.get?_cons_zero, Option.some.injEq] at hbk
          rw [← hbk]
          exact List.isEmpty_iff.mp hb
        | succ k' =>
          simp only [List.get?_cons_succ] at hbk
          exact hpre k' (by omega) bk hbk
    · simp only [fnb_aux, if_neg hb] at h
      cases h
      refine ⟨Nat.le_refl _, by simp, ?_, ?_⟩
      · intro b' hb'
        simp only [Nat.sub_self, List.get?_cons_zero, Option.some.injEq] at hb'
        rw [← hb']
        exact fun hc => hb (List.isEmpty_iff.mpr hc)
      · intro k hk bk hbk
        omega

theorem fnb_aux_none {V : Type} : ∀ (bs : List (LinkedList (HTEntry V))) (s : Nat),
    fnb_aux bs s = none → ∀ k bk, bs.get? k = some bk → bk.elems = []
  | [], _, _, k, bk, hbk => by simp at hbk
  | b :: rest, s, h, k, bk, hbk => by
    by_cases hb : b.elems.isEmpty
    · simp only [fnb_aux, if_pos hb] at h
      cases k with
      | zero =>
        simp only [List.get?_cons_zero, Option.some.injEq] at hbk
        rw [← hbk]
        exact List.isEmpty_iff.mp hb
      | succ k' =>
        simp only [List.get?_cons_succ] at hbk
        exact fnb_aux_none rest (s + 1) h k' bk hbk
    · simp [fnb_aux, if_neg hb] at h

theorem first_nonempty_from_some {V : Type} (bs : List (LinkedList (HTEntry V)))
    (s j : Nat) (h : first_nonempty_from bs s = some j) :
    s ≤ j ∧ j < bs.length ∧
      (∀ b, bs.get? j = some b → b.elems ≠ []) ∧
      (∀ k, s ≤ k → k < j → ∀ bk, bs.get? k = some bk → bk.elems = []) := by
  obtain ⟨hle, hlt, hne, hpre⟩ := fnb_aux_some (bs.drop s) s j h
  rw [List.length_drop] at hlt
  refine ⟨hle, by omega, ?_, ?_⟩
  · intro b hb
    apply hne
    rw [List.get?_drop]
    rw [show s + (j - s) = j by omega]
    exact hb
  · intro k hks hkj bk hbk
    apply hpre (k - s) (by omega)
    rw [List.get?_drop]
    rw [show s + (k - s) = k by omega]
    exact hbk

theorem first_nonempty_from_none {V : Type} (bs : List (LinkedList (HTEntry V)))
    (s : Nat) (h : first_nonempty_from bs s = none) :
    ∀ k, s ≤ k → ∀ bk, bs.get? k = some bk → bk.elems = [] := by
  intro k hks bk hbk
  apply fnb_aux_none (bs.drop s) s h (k - s)
  rw [List.get?_drop]
  rw [show s + (k - s) = k by omega]
  exact hbk

/-! ### More list helpers for the bucket-array accounting -/

theorem sg_sum_map_set {α : Type} : ∀ (l : List α) (i : Nat) (x : α) (f : α → Nat)
    (hi : i < l.length),
    ((l.set i x).map f).sum + f (l.get ⟨i, hi⟩) = (l.map f).sum + f x
  | a :: rest, 0, x, f, _ => by
    simp [List.set]
    omega
  | a :: rest, i + 1, x, f, hi => by
    have ih := sg_sum_map_set rest i x f (Nat.lt_of_succ_lt_succ hi)
    simp only [List.set, List.map_cons, List.sum_cons, List.get_cons_succ]
    omega

theorem sg_map_eraseIdx {α β : Type} (f : α → β) : ∀ (l : List α) (i : Nat),
    (l.eraseIdx i).map f = (l.map f).eraseIdx i
  | [], _ => by simp
  | a :: rest, 0 => by simp [List.eraseIdx]
  | a :: rest, i + 1 => by
    simp only [List.eraseIdx, List.map_cons]
    rw [sg_map_eraseIdx f rest i]

/-! ### Well-formedness of a table

These are the invariants the C code maintains across `HashTable_allocate`,
`HashTable_insert` and `HashTable_remove`:

* the bucket array is non-empty (it has the fixed length 8);
* each bucket's `num_elems` bookkeeping matches its chain;
* the table's `num_elems` equals the total number of stored entries;
* each entry's cached hash is the FNV-1a hash of its stored key, and the
  entry lives in bucket `hash % num_buckets`;
* no two entries of a bucket have the same key bytes. -/

def BucketsLWF {V : Type} (t : HashTable V) : Prop :=
  ∀ b ∈ t.buckets, LWF b

def CountWF {V : Type} (t : HashTable V) : Prop :=
  t.num_elems = (((t.buckets.map (fun b => b.elems.length)).sum : Nat) : Int)

def EntriesPlaced {V : Type} (t : HashTable V) : Prop :=
  ∀ i : Nat, ∀ hi : i < t.buckets.length, ∀ e ∈ (t.buckets.get ⟨i, hi⟩).elems,
    e.hash = FNV1a_64bit e.key ∧ e.hash % t.buckets.length = i

def BucketKeysNodup {V : Type} (t : HashTable V) : Prop :=
  ∀ i : Nat, ∀ hi : i < t.buckets.length,
    (((t.buckets.get ⟨i, hi⟩).elems.map (fun e => e.key)).Nodup)

def TableWF {V : Type} (t : HashTable V) : Prop :=
  0 < t.buckets.length ∧ BucketsLWF t ∧ CountWF t ∧ EntriesPlaced t ∧ BucketKeysNodup t

instance {V : Type} [DecidableEq V] (t : HashTable V) : Decidable (BucketsLWF t) := by
  unfold BucketsLWF; infer_instance

instance {V : Type} [DecidableEq V] (t : HashTable V) : Decidable (CountWF t) := by
  unfold CountWF; infer_instance

instance {V : Type} [DecidableEq V] (t : HashTable V) : Decidable (EntriesPlaced t) := by
  unfold EntriesPlaced; infer_instance

instance {V : Type} [DecidableEq V] (t : HashTable V) : Decidable (BucketKeysNodup t) := by
  unfold BucketKeysNodup; infer_instance

instance {V : Type} [DecidableEq V] (t : HashTable V) : Decidable (TableWF t) := by
  unfold TableWF; infer_instance

theorem allocate_TableWF (V : Type) : TableWF (HashTable_allocate V) := by
  refine ⟨by simp [HashTable_allocate, DEFAULT_BUCKETS], ?_, ?_, ?_, ?_⟩
  · intro b hb
    rw [HashTable_allocate] at hb
    simp only [List.mem_replicate] at hb
    rw [hb.2]
    exact LWF_allocate
  · simp [CountWF, HashTable_allocate, LinkedList_allocate, DEFAULT_BUCKETS]
  · intro i hi e he
    simp only [HashTable_allocate, List.get_replicate, LinkedList_allocate] at he
    simp at he
  · intro i hi
    simp [HashTable_allocate, List.get_replicate, LinkedList_allocate]

/-- States reachable through the public mutating interface named by the
specification: allocation, insertion, removal. -/
inductive Reachable {V : Type} : HashTable V → Prop where
  | allocate : Reachable (HashTable_allocate V)
  | insert {t t' : HashTable V} {key : List Byte} {key_len : Nat} {v : V} {slot : Bool}
      {f : Bool} {w : Option V} :
      Reachable t → HashTable_insert t key key_len v slot = some (f, w, t') →
      Reachable t'
  | remove {t t' : HashTable V} {key : List Byte} {key_len : Nat} {slot : Bool}
      {f : Bool} {w : Option V} :
      Reachable t → HashTable_remove t key key_len slot = some (f, w, t') →
      Reachable t'

/-! ### Preservation of the invariants by insert and remove -/

theorem BucketsLWF_set {V : Type} {t : HashTable V} (hlwf : BucketsLWF t)
    {j : Nat} {nb : LinkedList (HTEntry V)} (hnb : LWF nb) (m : Int) :
    BucketsLWF ⟨t.buckets.set j nb, m⟩ := by
  intro b hb
  rcases List.mem_or_eq_of_mem_set hb with hold | hnew
  · exact hlwf b hold
  · rw [hnew]; exact hnb

theorem CountWF_set {V : Type} {t : HashTable V} (hcount : CountWF t)
    {j : Nat} (hj : j < t.buckets.length) {bucket : LinkedList (HTEntry V)}
    (hb : t.buckets.get? j = some bucket) {nb : LinkedList (HTEntry V)} {m : Int}
    (hm : m + (bucket.elems.length : Int) = t.num_elems + (nb.elems.length : Int)) :
    CountWF ⟨t.buckets.set j nb, m⟩ := by
  have hget : t.buckets.get ⟨j, hj⟩ = bucket := by
    have := List.get?_eq_get hj
    rw [hb] at this
    exact (Option.some.injEq _ _ ▸ this.symm)
  have hsum := sg_sum_map_set t.buckets j nb (fun b => b.elems.length) hj
  rw [hget] at hsum
  rw [CountWF] at hcount ⊢
  simp only at hsum ⊢
  omega

theorem EntriesPlaced_set {V : Type} {t : HashTable V} (hplaced : EntriesPlaced t)
    {j : Nat} {nb : LinkedList (HTEntry V)} (m : Int)
    (hnb : ∀ e ∈ nb.elems, e.hash = FNV1a_64bit e.key ∧ e.hash % t.buckets.length = j) :
    EntriesPlaced ⟨t.buckets.set j nb, m⟩ := by
  intro i hi e he
  simp only [List.length_set] at hi
  simp only [List.length_set]
  have hgs : (t.buckets.set j nb).get? i = some ((t.buckets.set j nb).get ⟨i, by simpa using hi⟩) :=
    List.get?_eq_get (by simpa using hi)
  by_cases hij : j = i
  · subst hij
    rw [sg_get?_set_eq t.buckets j nb hi] at hgs
    have : nb = (t.buckets.set j nb).get ⟨j, by simpa using hi⟩ :=
      Option.some.injEq _ _ ▸ hgs
    rw [← this] at he
    exact hnb e he
  · rw [sg_get?_set_ne t.buckets j i nb hij, List.get?_eq_get hi] at hgs
    have : t.buckets.get ⟨i, hi⟩ = (t.buckets.set j nb).get ⟨i, by simpa using hi⟩ :=
      Option.some.injEq _ _ ▸ hgs
    rw [← this] at he
    exact hplaced i hi e he

theorem BucketKeysNodup_set {V : Type} {t : HashTable V} (hnodup : BucketKeysNodup t)
    {j : Nat} {nb : LinkedList (HTEntry V)} (m : Int)
    (hnb : (nb.elems.map (fun e => e.key)).Nodup) :
    BucketKeysNodup ⟨t.buckets.set j nb, m⟩ := by
  intro i hi
  simp only [List.length_set] at hi
  have hgs : (t.buckets.set j nb).get? i = some ((t.buckets.set j nb).get ⟨i, by simpa using hi⟩) :=
    List.get?_eq_get (by simpa using hi)
  by_cases hij : j = i
  · subst hij
    rw [sg_get?_set_eq t.buckets j nb hi] at hgs
    have : nb = (t.buckets.set j nb).get ⟨j, by simpa using hi⟩ :=
      Option.some.injEq _ _ ▸ hgs
    rw [← this]
    exact hnb
  · rw [sg_get?_set_ne t.buckets j i nb hij, List.get?_eq_get hi] at hgs
    have : t.buckets.get ⟨i, hi⟩ = (t.buckets.set j nb).get ⟨i, by simpa using hi⟩ :=
      Option.some.injEq _ _ ▸ hgs
    rw [← this]
    exact hnodup i hi

/-- The key of the matched entry, from `advance_to_target`. -/
theorem att_match_key {V : Type} {bucket : List (HTEntry V)} {h : Nat} {kb : List Byte}
    {i : Nat} (hadv : advance_to_target bucket h kb = some i) :
    ∃ hi : i < bucket.length, (bucket.get ⟨i, hi⟩).key = kb := by
  obtain ⟨hi, hmat, _⟩ := att_eq_some bucket h kb i hadv
  exact ⟨hi, ((entry_matches_iff _ _ _).mp hmat).2⟩

/-- When the scan misses, no entry of a well-placed bucket carries the probed
key bytes: an entry with those bytes would also carry their hash and match. -/
theorem key_not_in_bucket_of_att_none {V : Type} {bucket : List (HTEntry V)}
    {kb : List Byte} (hadv : advance_to_target bucket (FNV1a_64bit kb) kb = none)
    (hhash : ∀ e ∈ bucket, e.hash = FNV1a_64bit e.key) :
    ∀ e ∈ bucket, e.key ≠ kb := by
  intro e he hc
  have hfail := (att_eq_none_iff bucket (FNV1a_64bit kb) kb).mp hadv e he
  have : entry_matches e (FNV1a_64bit kb) kb = true := by
    rw [entry_matches_iff]
    exact ⟨by rw [hhash e he, hc], hc⟩
  rw [hfail] at this
  exact Bool.false_ne_true this

/-- The bucket chain after an overwriting insert has no duplicate keys: the
sole matching entry was erased before the new entry was prepended. -/
theorem nodup_keys_overwrite {V : Type} {bucket : List (HTEntry V)} {i : Nat}
    (hi : i < bucket.length) (hnd : (bucket.map (fun e => e.key)).Nodup)
    {kb : List Byte} (hkey : (bucket.get ⟨i, hi⟩).key = kb)
    (hnew : HTEntry V) (hnewkey : hnew.key = kb) :
    ((hnew :: bucket.eraseIdx i).map (fun e => e.key)).Nodup := by
  rw [List.map_cons, hnewkey, sg_map_eraseIdx]
  have hlen : i < (bucket.map (fun e => e.key)).length := by simpa using hi
  have hget : (bucket.map (fun e => e.key)).get ⟨i, hlen⟩ = kb := by
    rw [List.get_map]
    exact hkey
  refine List.nodup_cons.mpr ⟨?_, ?_⟩
  · rw [← hget]
    exact sg_not_mem_eraseIdx_of_nodup _ i hlen hnd
  · exact List.Nodup.sublist (List.eraseIdx_sublist _ i) hnd

theorem insert_TableWF {V : Type} {t t' : HashTable V} {key : List Byte} {key_len : Nat}
    {v : V} {slot f : Bool} {w : Option V} (hwf : TableWF t)
    (h : HashTable_insert t key key_len v slot = some (f, w, t')) : TableWF t' := by
  obtain ⟨hpos, hlwf, hcount, hplaced, hnodup⟩ := hwf
  cases hn : normalizeKey key key_len with
  | none => simp [HashTable_insert, hn] at h
  | some kb =>
    simp only [HashTable_insert, hn] at h
    have hbidx : FNV1a_64bit kb % t.buckets.length < t.buckets.length :=
      Nat.mod_lt _ hpos
    cases hb : t.buckets.get? (FNV1a_64bit kb % t.buckets.length) with
    | none =>
      simp only [hb] at h
      exact Option.noConfusion h
    | some bucket =>
      simp only [hb] at h
      have hget : t.buckets.get ⟨_, hbidx⟩ = bucket := by
        have := List.get?_eq_get hbidx
        rw [hb] at this
        exact (Option.some.injEq _ _ ▸ this.symm)
      have hblwf : LWF bucket := hlwf bucket (List.get?_mem hb)
      cases hadv : advance_to_target bucket.elems (FNV1a_64bit kb) kb with
      | some i =>
        simp only [hadv] at h
        obtain ⟨hi, hmat, _⟩ := att_eq_some _ _ _ _ hadv
        obtain ⟨cur, hrem⟩ := ll_remove_list_shape bucket i hblwf hi
        rw [hrem] at h
        simp only [Option.some.injEq, Prod.mk.injEq] at h
        obtain ⟨hf, hw, ht'⟩ := h
        subst ht'
        have hlen_erase : (bucket.elems.eraseIdx i).length = bucket.elems.length - 1 :=
          sg_length_eraseIdx bucket.elems i hi
    -- the updated bucket: the new entry prepended to the chain minus the match
        refine ⟨by simpa using hpos, ?_, ?_, ?_, ?_⟩
        · refine BucketsLWF_set hlwf ?_ _
          rw [LWF, LinkedList_prepend]
          simp only [List.length_cons, hlen_erase]
          rw [LWF] at hblwf
          rw [hblwf]
          push_cast
          omega
        · refine CountWF_set hcount hbidx hb ?_
          simp only [LinkedList_prepend, List.length_cons, hlen_erase]
          push_cast
          omega
        · refine EntriesPlaced_set hplaced _ ?_
          intro e he
          simp only [LinkedList_prepend, List.mem_cons] at he
          rcases he with he | he
          · rw [he]
            exact ⟨rfl, rfl⟩
          · have : e ∈ bucket.elems := sg_mem_eraseIdx _ i e he
            rw [← hget] at this
            exact hplaced _ hbidx e this
        · refine BucketKeysNodup_set hnodup _ ?_
          have hkey : (bucket.elems.get ⟨i, hi⟩).key = kb :=
            ((entry_matches_iff _ _ _).mp hmat).2
          have hnd : (bucket.elems.map (fun e => e.key)).Nodup := by
            have := hnodup _ hbidx
            rw [hget] at this
            exact this
          exact nodup_keys_overwrite hi hnd hkey ⟨FNV1a_64bit kb, kb, v⟩ rfl
      | none =>
        simp only [hadv] at h
        simp only [Option.some.injEq, Prod.mk.injEq] at h
        obtain ⟨hf, hw, ht'⟩ := h
        subst ht'
        refine ⟨by simpa using hpos, ?_, ?_, ?_, ?_⟩
        · refine BucketsLWF_set hlwf ?_ _
          exact LWF_prepend bucket _ hblwf
        · refine CountWF_set hcount hbidx hb ?_
          simp only [LinkedList_prepend, List.length_cons]
          push_cast
          omega
        · refine EntriesPlaced_set hplaced _ ?_
          intro e he
          simp only [LinkedList_prepend, List.mem_cons] at he
          rcases he with he | he
          · rw [he]
            exact ⟨rfl, rfl⟩
          · rw [← hget] at he
            exact hplaced _ hbidx e he
        · refine BucketKeysNodup_set hnodup _ ?_
          simp only [LinkedList_prepend, List.map_cons]
          refine List.nodup_cons.mpr ⟨?_, ?_⟩
          · intro hmem
            simp only [List.mem_map] at hmem
            obtain ⟨e, he, hekey⟩ := hmem
            exact key_not_in_bucket_of_att_none hadv
              (fun e' he' => by
                have hmem : e' ∈ (t.buckets.get ⟨_, hbidx⟩).elems := by
                  rw [hget]; exact he'
                exact (hplaced _ hbidx e' hmem).1) e he hekey
          · have := hnodup _ hbidx
            rw [hget] at this
            exact this

theorem remove_TableWF {V : Type} {t t' : HashTable V} {key : List Byte} {key_len : Nat}
    {slot f : Bool} {w : Option V} (hwf : TableWF t)
    (h : HashTable_remove t key key_len slot = some (f, w, t')) : TableWF t' := by
  obtain ⟨hpos, hlwf, hcount, hplaced, hnodup⟩ := hwf
  cases hn : normalizeKey key key_len with
  | none => simp [HashTable_remove, hn] at h
  | some kb =>
    simp only [HashTable_remove, hn] at h
    have hbidx : FNV1a_64bit kb % t.buckets.length < t.buckets.length :=
      Nat.mod_lt _ hpos
    cases hb : t.buckets.get? (FNV1a_64bit kb % t.buckets.length) with
    | none =>
      simp only [hb] at h
      exact Option.noConfusion h
    | some bucket =>
      simp only [hb] at h
      have hget : t.buckets.get ⟨_, hbidx⟩ = bucket := by
        have := List.get?_eq_get hbidx
        rw [hb] at this
        exact (Option.some.injEq _ _ ▸ this.symm)
      have hblwf : LWF bucket := hlwf bucket (List.get?_mem hb)
      cases hadv : advance_to_target bucket.elems (FNV1a_64bit kb) kb with
      | none =>
        simp only [hadv, Option.some.injEq, Prod.mk.injEq] at h
        obtain ⟨-, -, ht'⟩ := h
        subst ht'
        exact ⟨hpos, hlwf, hcount, hplaced, hnodup⟩
      | some i =>
        simp only [hadv] at h
        obtain ⟨hi, hmat, _⟩ := att_eq_some _ _ _ _ hadv
        obtain ⟨cur, hrem⟩ := ll_remove_list_shape bucket i hblwf hi
        rw [hrem] at h
        cases hslot : slot with
        | false => simp [hslot] at h
        | true =>
          simp only [hslot, if_true, Option.some.injEq, Prod.mk.injEq] at h
          obtain ⟨hf, hw, ht'⟩ := h
          subst ht'
          have hlen_erase : (bucket.elems.eraseIdx i).length = bucket.elems.length - 1 :=
            sg_length_eraseIdx bucket.elems i hi
          refine ⟨by simpa using hpos, ?_, ?_, ?_, ?_⟩
          · refine BucketsLWF_set hlwf ?_ _
            exact LWF_remove bucket i hblwf hi
          · refine CountWF_set hcount hbidx hb ?_
            simp only [hlen_erase]
            rw [LWF] at hblwf
            omega
          · refine EntriesPlaced_set hplaced _ ?_
            intro e he
            simp only at he
            have : e ∈ bucket.elems := sg_mem_eraseIdx _ i e he
            rw [← hget] at this
            exact hplaced _ hbidx e this
          · refine BucketKeysNodup_set hnodup _ ?_
            simp only [sg_map_eraseIdx]
            have := hnodup _ hbidx
            rw [hget] at this
            exact List.Nodup.sublist (List.eraseIdx_sublist _ i) this

theorem Reachable_TableWF {V : Type} {t : HashTable V} (h : Reachable t) : TableWF t := by
  induction h with
  | allocate => exact allocate_TableWF V
  | insert _ heq ih => exact insert_TableWF ih heq
  | remove _ heq ih => exact remove_TableWF ih heq

/-- In a well-formed table the key bytes stored across all buckets are
pairwise distinct: within a bucket by the no-duplicate invariant, and across
buckets because a key determines its hash and therefore its bucket. -/
theorem entries_keys_nodup {V : Type} {t : HashTable V} (hwf : TableWF t) :
    ((HashTable_entries t).map (fun e => e.key)).Nodup := by
  obtain ⟨hpos, _, _, hplaced, hnodup⟩ := hwf
  rw [HashTable_entries, List.map_flatten, List.map_map]
  rw [List.nodup_flatten]
  constructor
  · intro l hl
    simp only [List.mem_map, Function.comp] at hl
    obtain ⟨b, hb, rfl⟩ := hl
    obtain ⟨i, hgi⟩ := List.mem_iff_get.mp hb
    rw [← hgi]
    exact hnodup i.1 i.2
  · rw [List.pairwise_iff_get]
    intro i j hij k hki hkj
    simp only [List.get_map, Function.comp] at hki hkj
    have hleni : i.1 < t.buckets.length := by
      have := i.2; simpa using this
    have hlenj : j.1 < t.buckets.length := by
      have := j.2; simpa using this
    simp only [List.mem_map] at hki hkj
    obtain ⟨e1, he1, hke1⟩ := hki
    obtain ⟨e2, he2, hke2⟩ := hkj
    have hp1 := hplaced i.1 hleni e1 (by convert he1 using 2)
    have hp2 := hplaced j.1 hlenj e2 (by convert he2 using 2)
    have hkeys : e1.key = e2.key := by rw [hke1, hke2]
    have heq : (i.1 : Nat) = j.1 := by
      rw [← hp1.2, ← hp2.2, hp1.1, hp2.1, hkeys]
    have hlt : (i.1 : Nat) < j.1 := Fin.lt_def.mp hij
    omega

theorem entries_length_eq_count {V : Type} {t : HashTable V} (hwf : TableWF t) :
    t.num_elems = ((HashTable_entries t).length : Int) := by
  obtain ⟨_, _, hcount, _, _⟩ := hwf
  rw [HashTable_entries, List.length_flatten, List.map_map]
  exact hcount

theorem sum_bucket_counts {V : Type} : ∀ (bs : List (LinkedList (HTEntry V))),
    (∀ b ∈ bs, LWF b) →
    (bs.map (fun b => b.num_elems)).sum = (((bs.map (fun b => b.elems.length)).sum : Nat) : Int)
  | [], _ => by simp
  | b :: rest, h => by
    have hb := h b (List.mem_cons_self b rest)
    have ih := sum_bucket_counts rest (fun b' hb' => h b' (List.mem_cons_of_mem b hb'))
    simp only [List.map_cons, List.sum_cons]
    rw [LWF] at hb
    rw [hb, ih]
    push_cast
    ring

/-- Claim C2: in every table state reachable by allocate, insert and remove,
the table's running count equals the sum of the buckets' counts; moreover the
stored keys are pairwise distinct and the count equals the number of entries,
so the count is the number of keys currently present (an overwriting insert
changes neither). -/
theorem C2_count_invariant {V : Type} (t : HashTable V) (h : Reachable t) :
    t.num_elems = (t.buckets.map (fun b => b.num_elems)).sum ∧
    ((HashTable_entries t).map (fun e => e.key)).Nodup ∧
    t.num_elems = (((HashTable_entries t).map (fun e => e.key)).length : Int) := by
  have hwf := Reachable_TableWF h
  refine ⟨?_, entries_keys_nodup hwf, ?_⟩
  · rw [sum_bucket_counts t.buckets hwf.2.1]
    exact hwf.2.2.1
  · rw [List.length_map]
    exact entries_length_eq_count hwf

/-- Witness for C2 at a concrete reachable state: a fresh table extended by
one successful insert. -/
theorem C2_count_invariant_witness :
    (HashTable_allocate Nat).num_elems =
      ((HashTable_allocate Nat).buckets.map (fun b => b.num_elems)).sum ∧
    ((HashTable_entries (HashTable_allocate Nat)).map (fun e => e.key)).Nodup ∧
    (HashTable_allocate Nat).num_elems =
      (((HashTable_entries (HashTable_allocate Nat)).map (fun e => e.key)).length : Int) :=
  C2_count_invariant (HashTable_allocate Nat) Reachable.allocate

/-- Claim C1: inserting over a key that is present with old value `v_old`
returns "previously present", writes `v_old` through the old-value slot when
one was supplied, leaves the total count unchanged, places the new entry at
the head of the key's bucket, and a subsequent find returns the new value;
inserting a key that is absent returns false and increments the count. -/
theorem C1_insert_spec {V : Type} (t : HashTable V) (key : List Byte) (key_len : Nat)
    (v : V) (slot : Bool) (hbw : BucketsLWF t) :
    (∀ v_old : V, HashTable_find t key key_len = some (some v_old) →
      ∃ kb t', normalizeKey key key_len = some kb ∧
        HashTable_insert t key key_len v slot =
          some (true, if slot then some v_old else none, t') ∧
        t'.num_elems = t.num_elems ∧
        (∃ nb, t'.buckets.get? (FNV1a_64bit kb % t.buckets.length) = some nb ∧
          nb.elems.head? = some ⟨FNV1a_64bit kb, kb, v⟩) ∧
        HashTable_find t' key key_len = some (some v)) ∧
    (HashTable_find t key key_len = some none →
      ∃ t', HashTable_insert t key key_len v slot = some (false, none, t') ∧
        t'.num_elems = t.num_elems + 1) := by
  constructor
  · intro v_old hfound
    cases hn : normalizeKey key key_len with
    | none =>
      simp only [HashTable_find, hn] at hfound
      exact Option.noConfusion hfound
    | some kb =>
      simp only [HashTable_find, hn] at hfound
      cases hb : t.buckets.get? (FNV1a_64bit kb % t.buckets.length) with
      | none =>
        simp only [hb] at hfound
        exact Option.noConfusion hfound
      | some bucket =>
        simp only [hb] at hfound
        cases hadv : advance_to_target bucket.elems (FNV1a_64bit kb) kb with
        | none => simp [hadv] at hfound
        | some i =>
          simp only [hadv] at hfound
          cases hgi : bucket.elems.get? i with
          | none =>
            simp only [hgi] at hfound
            exact Option.noConfusion hfound
          | some e =>
            simp only [hgi, Option.some.injEq] at hfound
            obtain ⟨hi, hge⟩ := List.get?_eq_some.mp hgi
            have hblwf : LWF bucket := hbw bucket (List.get?_mem hb)
            obtain ⟨hbidx, -⟩ := List.get?_eq_some.mp hb
            obtain ⟨cur, hrem⟩ := ll_remove_list_shape bucket i hblwf hi
            have hv : (bucket.elems.get ⟨i, hi⟩).value = v_old := by
              rw [hge, hfound]
            refine ⟨kb, ⟨t.buckets.set (FNV1a_64bit kb % t.buckets.length)
              (LinkedList_prepend ⟨bucket.elems.eraseIdx i, bucket.num_elems - 1⟩
                ⟨FNV1a_64bit kb, kb, v⟩), t.num_elems⟩, rfl, ?_, rfl, ?_, ?_⟩
            · simp only [HashTable_insert, hn, hb, hadv, hrem, hv]
            · exact ⟨_, sg_get?_set_eq t.buckets _ _ hbidx, rfl⟩
            · simp only [HashTable_find, hn, List.length_set]
              rw [sg_get?_set_eq t.buckets _ _ hbidx]
              rw [LinkedList_prepend]
              simp only [att_cons_true _ _ _ _ (entry_matches_self (FNV1a_64bit kb) kb v)]
              rfl
  · intro hfound
    cases hn : normalizeKey key key_len with
    | none =>
      simp only [HashTable_find, hn] at hfound
      exact Option.noConfusion hfound
    | some kb =>
      simp only [HashTable_find, hn] at hfound
      cases hb : t.buckets.get? (FNV1a_64bit kb % t.buckets.length) with
      | none =>
        simp only [hb] at hfound
        exact Option.noConfusion hfound
      | some bucket =>
        simp only [hb] at hfound
        cases hadv : advance_to_target bucket.elems (FNV1a_64bit kb) kb with
        | some i =>
          simp only [hadv] at hfound
          cases hgi : bucket.elems.get? i with
          | none =>
            simp only [hgi] at hfound
            exact Option.noConfusion hfound
          | some e =>
            simp only [hgi, Option.some.injEq] at hfound
            exact Option.noConfusion hfound
        | none =>
          refine ⟨⟨t.buckets.set (FNV1a_64bit kb % t.buckets.length)
            (LinkedList_prepend bucket ⟨FNV1a_64bit kb, kb, v⟩), t.num_elems + 1⟩, ?_, rfl⟩
          simp only [HashTable_insert, hn, hb, hadv]

/-- A concrete table holding key `[1]` with value `10`, built by a public
insert on a fresh table. -/
def exampleTablePresent : HashTable Nat :=
  match HashTable_insert (HashTable_allocate Nat) [1] 1 10 true with
  | some (_, _, t) => t
  | none => HashTable_allocate Nat

/-- Witness for C1 at a concrete table, key and value. -/
theorem C1_insert_spec_witness :
    BucketsLWF exampleTablePresent ∧
    ((∀ v_old : Nat, HashTable_find exampleTablePresent [1] 1 = some (some v_old) →
      ∃ kb t', normalizeKey [1] 1 = some kb ∧
        HashTable_insert exampleTablePresent [1] 1 20 true =
          some (true, if true then some v_old else none, t') ∧
        t'.num_elems = exampleTablePresent.num_elems ∧
        (∃ nb, t'.buckets.get? (FNV1a_64bit kb % exampleTablePresent.buckets.length) =
            some nb ∧
          nb.elems.head? = some ⟨FNV1a_64bit kb, kb, 20⟩) ∧
        HashTable_find t' [1] 1 = some (some 20)) ∧
    (HashTable_find exampleTablePresent [1] 1 = some none →
      ∃ t', HashTable_insert exampleTablePresent [1] 1 20 true = some (false, none, t') ∧
        t'.num_elems = exampleTablePresent.num_elems + 1)) :=
  ⟨by decide, C1_insert_spec exampleTablePresent [1] 1 20 true (by decide)⟩

theorem sg_get?_dropLast {α : Type} : ∀ (l : List α) (j : Nat), j + 1 < l.length →
    l.dropLast.get? j = l.get? j
  | [], j, h => by simp at h
  | [x], j, h => by simp at h
  | x :: y :: rest, 0, _ => rfl
  | x :: y :: rest, j + 1, h => by
    have ih := sg_get?_dropLast (y :: rest) j (by simpa using h)
    simpa using ih

theorem sg_get?_eraseIdx_self {α : Type} : ∀ (l : List α) (i : Nat),
    (l.eraseIdx i).get? i = l.get? (i + 1)
  | [], i => by simp
  | a :: rest, 0 => by simp [List.eraseIdx]
  | a :: rest, i + 1 => by
    simp only [List.eraseIdx, List.get?_cons_succ]
    exact sg_get?_eraseIdx_self rest i

/-- Claim C5: through a valid ListCursor, `remove` on the sole node leaves the
cursor invalid; `remove` on the tail of a list of length at least two leaves
the cursor on the former predecessor; `remove` on a node that has a successor
leaves the cursor on the former successor; and `remove` with an invalid
cursor or a NULL output slot fails (`none`, and therefore without mutating
the list). -/
theorem C5_cursor_remove {α : Type} (it : LLIterator α) (hwf : LWF it.list) :
    (∀ slot : Bool, it.current = none → LLIterator_remove it slot = none) ∧
    (LLIterator_remove it false = none) ∧
    (∀ x : α, it.list.elems = [x] → it.current = some 0 →
      LLIterator_remove it true = some (x, ⟨⟨[], it.list.num_elems - 1⟩, none⟩)) ∧
    (∀ i : Nat, i + 1 = it.list.elems.length → 1 ≤ i → it.current = some i →
      ∃ p, it.list.elems.get? i = some p ∧
        LLIterator_remove it true =
          some (p, ⟨⟨it.list.elems.dropLast, it.list.num_elems - 1⟩, some (i - 1)⟩) ∧
        it.list.elems.dropLast.get? (i - 1) = it.list.elems.get? (i - 1)) ∧
    (∀ i : Nat, i + 1 < it.list.elems.length → it.current = some i →
      ∃ p, it.list.elems.get? i = some p ∧
        LLIterator_remove it true =
          some (p, ⟨⟨it.list.elems.eraseIdx i, it.list.num_elems - 1⟩, some i⟩) ∧
        (it.list.elems.eraseIdx i).get? i = it.list.elems.get? (i + 1)) := by
  refine ⟨?_, ?_, ?_, ?_, ?_⟩
  · intro slot hcur
    cases slot <;> simp [LLIterator_remove, hcur]
  · simp [LLIterator_remove]
  · intro x hx hcur
    have hnum : it.list.num_elems = 1 := by
      rw [LWF, hx] at hwf
      simpa using hwf
    simp [LLIterator_remove, hcur, LinkedList_pop_head, hx, hnum]
  · intro i hlen h1 hcur
    have hne : it.list.elems ≠ [] := by
      intro hc
      rw [hc] at hlen
      simp at hlen
    have hi : i < it.list.elems.length := by omega
    refine ⟨it.list.elems.get ⟨i, hi⟩, List.get?_eq_get hi, ?_, ?_⟩
    · have hi0 : ¬ i = 0 := by omega
      have hil : i = it.list.elems.length - 1 := by omega
      simp only [LLIterator_remove, hcur]
      rw [if_neg (by simp), if_neg hi0, if_pos hil, pop_tail_snoc it.list hwf hne]
      have hdl : it.list.elems.dropLast.length = i := by
        rw [List.length_dropLast]
        omega
      have hglast : it.list.elems.getLast hne = it.list.elems.get ⟨i, hi⟩ := by
        have h1' := List.get?_eq_get hi
        have h2' := List.getLast?_eq_getLast it.list.elems hne
        rw [List.getLast?_eq_get? it.list.elems] at h2'
        rw [show it.list.elems.length - 1 = i from by omega] at h2'
        rw [h1'] at h2'
        exact (Option.some.injEq _ _ ▸ h2').symm
      have hdlne : it.list.elems.dropLast.isEmpty = false := by
        cases hcase : it.list.elems.dropLast.isEmpty
        · rfl
        · exfalso
          have hnil := List.isEmpty_iff.mp hcase
          rw [hnil] at hdl
          simp at hdl
          omega
      simp [hglast, hdlne, hdl]
    · exact sg_get?_dropLast it.list.elems (i - 1) (by omega)
  · intro i hi hcur
    have hii : i < it.list.elems.length := by omega
    refine ⟨it.list.elems.get ⟨i, hii⟩, List.get?_eq_get hii, ?_, sg_get?_eraseIdx_self _ i⟩
    by_cases hi0 : i = 0
    · subst hi0
      obtain ⟨p, q, rest, hx⟩ : ∃ p q rest, it.list.elems = p :: q :: rest := by
        cases hel : it.list.elems with
        | nil => rw [hel] at hi; simp at hi
        | cons p r =>
          cases hr : r with
          | nil => rw [hel, hr] at hi; simp at hi
          | cons q rest => exact ⟨p, q, rest, by simp [hel, hr]⟩
      have hnum : it.list.num_elems ≠ 0 := by
        rw [LWF, hx] at hwf
        rw [hwf]
        simp only [List.length_cons]
        omega
      simp [LLIterator_remove, hcur, LinkedList_pop_head, hnum, hx, List.eraseIdx]
    · have hil : ¬ i = it.list.elems.length - 1 := by omega
      simp only [LLIterator_remove, hcur, if_neg hi0, if_neg hil, List.get?_eq_get hii,
        Bool.true_eq_false, if_false]

/-- A concrete three-element list with the cursor on the middle node. -/
def exampleIt : LLIterator Nat := ⟨⟨[10, 20, 30], 3⟩, some 1⟩

/-- Witness for C5 at a concrete list and cursor. -/
theorem C5_cursor_remove_witness :
    LWF exampleIt.list ∧
    ((∀ slot : Bool, exampleIt.current = none → LLIterator_remove exampleIt slot = none) ∧
    (LLIterator_remove exampleIt false = none) ∧
    (∀ x : Nat, exampleIt.list.elems = [x] → exampleIt.current = some 0 →
      LLIterator_remove exampleIt true =
        some (x, ⟨⟨[], exampleIt.list.num_elems - 1⟩, none⟩)) ∧
    (∀ i : Nat, i + 1 = exampleIt.list.elems.length → 1 ≤ i → exampleIt.current = some i →
      ∃ p, exampleIt.list.elems.get? i = some p ∧
        LLIterator_remove exampleIt true =
          some (p, ⟨⟨exampleIt.list.elems.dropLast, exampleIt.list.num_elems - 1⟩,
            some (i - 1)⟩) ∧
        exampleIt.list.elems.dropLast.get? (i - 1) = exampleIt.list.elems.get? (i - 1)) ∧
    (∀ i : Nat, i + 1 < exampleIt.list.elems.length → exampleIt.current = some i →
      ∃ p, exampleIt.list.elems.get? i = some p ∧
        LLIterator_remove exampleIt true =
          some (p, ⟨⟨exampleIt.list.elems.eraseIdx i, exampleIt.list.num_elems - 1⟩,
            some i⟩) ∧
        (exampleIt.list.elems.eraseIdx i).get? i = exampleIt.list.elems.get? (i + 1))) :=
  ⟨by decide, C5_cursor_remove exampleIt (by decide)⟩

/-- Claim C6: for a NUL-terminated key buffer (`n` bytes before the first
zero byte), find, insert and remove behave identically with the zero-length
sentinel and with the explicit length `strlen(key)`, and the key bytes that
get stored are the `n` bytes before the terminator — the terminator itself
(and any zero byte) is excluded. -/
theorem C6_sentinel_equivalence {V : Type} (t : HashTable V) (key : List Byte) (n : Nat)
    (v : V) (slot : Bool) (hscan : scan_strlen key = some n) :
    HashTable_find t key 0 = HashTable_find t key n ∧
    HashTable_insert t key 0 v slot = HashTable_insert t key n v slot ∧
    HashTable_remove t key 0 slot = HashTable_remove t key n slot ∧
    normalizeKey key 0 = some (key.take n) ∧ (0 : Byte) ∉ key.take n := by
  have hnorm0 : normalizeKey key 0 = some (key.take n) := normalizeKey_zero key n hscan
  by_cases hn0 : n = 0
  · subst hn0
    exact ⟨rfl, rfl, rfl, hnorm0, by simp⟩
  · have hnormn : normalizeKey key n = some (key.take n) :=
      normalizeKey_pos key n hn0 (Nat.le_of_lt (scan_strlen_lt key n hscan))
    refine ⟨?_, ?_, ?_, hnorm0, scan_strlen_take key n hscan⟩
    · simp only [HashTable_find, hnorm0, hnormn]
    · simp only [HashTable_insert, hnorm0, hnormn]
    · simp only [HashTable_remove, hnorm0, hnormn]

/-- Witness for C6 at a concrete table and NUL-terminated key. -/
theorem C6_sentinel_equivalence_witness :
    scan_strlen [7, 8, 0] = some 2 ∧
    (HashTable_find exampleTablePresent [7, 8, 0] 0 =
        HashTable_find exampleTablePresent [7, 8, 0] 2 ∧
      HashTable_insert exampleTablePresent [7, 8, 0] 0 5 true =
        HashTable_insert exampleTablePresent [7, 8, 0] 2 5 true ∧
      HashTable_remove exampleTablePresent [7, 8, 0] 0 true =
        HashTable_remove exampleTablePresent [7, 8, 0] 2 true ∧
      normalizeKey [7, 8, 0] 0 = some (List.take 2 [7, 8, 0]) ∧
      (0 : Byte) ∉ List.take 2 [7, 8, 0]) :=
  ⟨by decide, C6_sentinel_equivalence exampleTablePresent [7, 8, 0] 2 5 true (by decide)⟩

/-- Claim C7 (code bug): `HTIterator_allocate` on an empty table returns the
early-exit iterator whose `table` and `bucket_idx` fields were never written;
`HTIterator_is_valid` then dereferences the indeterminate `table` pointer
before it ever looks at `bucket_iter`, and `next`, `get` and `remove` all go
through `is_valid` first — every one of these calls is undefined behaviour
(`none`), not the clean `false`/failure the specification promises. -/
theorem C7_empty_table_cursor_uninitialized :
    HTIterator_allocate (HashTable_allocate Nat) = some ⟨none, none, none⟩ ∧
    HTIterator_is_valid (⟨none, none, none⟩ : HTIterator Nat) = none ∧
    HTIterator_next (⟨none, none, none⟩ : HTIterator Nat) = none ∧
    HTIterator_get (⟨none, none, none⟩ : HTIterator Nat) = none ∧
    HTIterator_remove (⟨none, none, none⟩ : HTIterator Nat) true = none := by
  refine ⟨by decide, rfl, rfl, rfl, rfl⟩

/-- Counterexample to C8 as stated: on a table that does contain the probed
key, `HashTable_remove` with a NULL old-value slot does not report failure
without mutating — the C code mutates the bucket and then executes
`*old_value` on the NULL slot (undefined behaviour, the model's `none`). -/
theorem C8_cex_remove_null_slot :
    HashTable_remove exampleTablePresent [1] 1 false ≠
      some (false, none, exampleTablePresent) ∧
    HashTable_remove exampleTablePresent [1] 1 false = none := by
  refine ⟨by decide, by decide⟩

/-- Claim C8 (amended): insert, find, remove and count reject a NULL table or
NULL key with a failure value and no mutation; remove with a NULL old-value
slot reports failure without mutation only when the key is absent (when the
key is present the unchecked slot is dereferenced — see the counterexample). -/
theorem C8_null_argument_rejection {V : Type} (t : HashTable V) (key : List Byte)
    (key_len : Nat) (v : V) (slot : Bool) :
    (∀ k : Option (List Byte),
      HashTable_insert_c none k key_len v slot = some (false, none, none)) ∧
    (HashTable_insert_c (some t) none key_len v slot = some (false, none, some t)) ∧
    (∀ k : Option (List Byte), HashTable_find_c (V := V) none k key_len = some none) ∧
    (HashTable_find_c (some t) none key_len = some none) ∧
    (∀ k : Option (List Byte),
      HashTable_remove_c (V := V) none k key_len slot = some (false, none, none)) ∧
    (HashTable_remove_c (some t) none key_len slot = some (false, none, some t)) ∧
    (HashTable_num_elements (V := V) none = -1) ∧
    (HashTable_find t key key_len = some none →
      HashTable_remove t key key_len false = some (false, none, t)) := by
  refine ⟨?_, rfl, ?_, rfl, ?_, rfl, rfl, ?_⟩
  · intro k; cases k <;> rfl
  · intro k; cases k <;> rfl
  · intro k; cases k <;> rfl
  · intro hfound
    cases hn : normalizeKey key key_len with
    | none =>
      simp only [HashTable_find, hn] at hfound
      exact Option.noConfusion hfound
    | some kb =>
      simp only [HashTable_find, hn] at hfound
      cases hb : t.buckets.get? (FNV1a_64bit kb % t.buckets.length) with
      | none =>
        simp only [hb] at hfound
        exact Option.noConfusion hfound
      | some bucket =>
        simp only [hb] at hfound
        cases hadv : advance_to_target bucket.elems (FNV1a_64bit kb) kb with
        | some i =>
          simp only [hadv] at hfound
          cases hgi : bucket.elems.get? i with
          | none =>
            simp only [hgi] at hfound
            exact Option.noConfusion hfound
          | some e =>
            simp only [hgi, Option.some.injEq] at hfound
            exact Option.noConfusion hfound
        | none =>
          simp only [HashTable_remove, hn, hb, hadv]

/-- Witness for C8 at a concrete table and key. -/
theorem C8_null_argument_rejection_witness :
    (∀ k : Option (List Byte),
      HashTable_insert_c none k 1 3 true = some (false, none, none)) ∧
    (HashTable_insert_c (some exampleTablePresent) none 1 3 true =
      some (false, none, some exampleTablePresent)) ∧
    (∀ k : Option (List Byte),
      HashTable_find_c (V := Nat) none k 1 = some none) ∧
    (HashTable_find_c (some exampleTablePresent) none 1 = some none) ∧
    (∀ k : Option (List Byte),
      HashTable_remove_c (V := Nat) none k 1 true = some (false, none, none)) ∧
    (HashTable_remove_c (some exampleTablePresent) none 1 true =
      some (false, none, some exampleTablePresent)) ∧
    (HashTable_num_elements (V := Nat) none = -1) ∧
    (HashTable_find exampleTablePresent [9] 1 = some none →
      HashTable_remove exampleTablePresent [9] 1 false =
        some (false, none, exampleTablePresent)) :=
  C8_null_argument_rejection exampleTablePresent [9] 1 3 true

/-- A concrete table holding one entry whose stored key is empty: the caller
passed the one-byte buffer `[0]` (the C string `""`) with the zero-length
sentinel, so zero key bytes were copied. -/
def exampleEmptyKeyTable : HashTable Nat :=
  match HashTable_insert (HashTable_allocate Nat) [0] 0 7 true with
  | some (_, _, t) => t
  | none => HashTable_allocate Nat

/-- Claim C10 (code bug): `HTIterator_remove` hands the stored key pointer
and stored `key_len` back to `HashTable_remove`, which re-applies the
`key_len == 0` sentinel; for the entry stored with an empty key the
terminator scan runs past the zero-byte key copy (`normalizeKey [] 0 = none`)
— the removal lookup is not determined by the stored `key_len` bytes, and
the whole call is undefined behaviour instead of removing the designated
entry. -/
theorem C10_iterator_remove_empty_key_ub :
    HTIterator_allocate exampleEmptyKeyTable =
      some ⟨some (some 0), some exampleEmptyKeyTable, some 5⟩ ∧
    HTIterator_remove
      (⟨some (some 0), some exampleEmptyKeyTable, some 5⟩ : HTIterator Nat) true = none ∧
    normalizeKey [] 0 = none ∧
    exampleEmptyKeyTable.num_elems = 1 := by
  refine ⟨by decide, by decide, rfl, by decide⟩

/-- Counterexample to C3 as stated ("for every table ..."): the failing table
is reachable by a single public insert from a fresh table and is well-formed,
yet the very first destructive-removal call on its freshly allocated cursor
is undefined behaviour (the sentinel rescan of C10), so the loop removes
nothing — the drain with the canonical fuel (count + 1) is undefined instead
of producing the entry list, and the count never reaches 0; and on a table
with zero entries the first loop iteration already dereferences the
uninitialised iterator fields (the C7 bug) instead of terminating cleanly. -/
theorem C3_cex_destructive_iteration :
    HashTable_insert (HashTable_allocate Nat) [0] 0 7 true =
      some (false, none, exampleEmptyKeyTable) ∧
    TableWF exampleEmptyKeyTable ∧
    HTIterator_allocate exampleEmptyKeyTable =
      some ⟨some (some 0), some exampleEmptyKeyTable, some 5⟩ ∧
    HTIterator_remove
      (⟨some (some 0), some exampleEmptyKeyTable, some 5⟩ : HTIterator Nat) true =
      none ∧
    HTIterator_drain 2
      (⟨some (some 0), some exampleEmptyKeyTable, some 5⟩ : HTIterator Nat) = none ∧
    exampleEmptyKeyTable.num_elems = 1 ∧
    HTIterator_allocate (HashTable_allocate Nat) = some ⟨none, none, none⟩ ∧
    HTIterator_drain 1 (⟨none, none, none⟩ : HTIterator Nat) = none := by
  refine ⟨by decide, by decide, by decide, by decide, by decide, by decide, by decide, rfl⟩

/-- Counterexample to C4 as stated: for a table holding zero entries the
iteration loop is not the clean empty traversal the claim describes — its
first validity check reads the uninitialised `table` field of the
immediately-invalid cursor (undefined behaviour). -/
theorem C4_cex_traverse_empty_table :
    HTIterator_allocate (HashTable_allocate Nat) = some ⟨none, none, none⟩ ∧
    HTIterator_traverse 1 (⟨none, none, none⟩ : HTIterator Nat) = none ∧
    HTIterator_traverse 1 (⟨none, none, none⟩ : HTIterator Nat) ≠ some [] := by
  refine ⟨by decide, rfl, by decide⟩

/-! ### Traversal order: decomposing the entry list around the cursor -/

theorem sg_le_sum {α : Type} : ∀ (l : List α) (f : α → Nat) (i : Nat) (hi : i < l.length),
    f (l.get ⟨i, hi⟩) ≤ (l.map f).sum
  | a :: rest, f, 0, _ => by
    simp only [List.get, List.map_cons, List.sum_cons]
    omega
  | a :: rest, f, i + 1, hi => by
    have ih := sg_le_sum rest f i (Nat.lt_of_succ_lt_succ hi)
    simp only [List.get_cons_succ, List.map_cons, List.sum_cons]
    omega

theorem sg_flatten_nil {α : Type} : ∀ (L : List (List α)), (∀ x ∈ L, x = []) →
    L.flatten = []
  | [], _ => rfl
  | x :: rest, h => by
    rw [List.flatten_cons, h x (List.mem_cons_self x rest),
      sg_flatten_nil rest (fun y hy => h y (List.mem_cons_of_mem x hy))]
    rfl

theorem sg_drop_set {α : Type} : ∀ (l : List α) (j : Nat) (x : α) (s : Nat), j < s →
    (l.set j x).drop s = l.drop s
  | [], _, _, _, _ => by simp
  | a :: rest, 0, x, s + 1, _ => by simp
  | a :: rest, j + 1, x, 0, h => by omega
  | a :: rest, j + 1, x, s + 1, h => by
    simp only [List.set, List.drop_succ_cons]
    exact sg_drop_set rest j x s (by omega)

/-- The entries of the table from bucket `s` onward, in bucket order. -/
def tail_entries {V : Type} (t : HashTable V) (s : Nat) : List (HTEntry V) :=
  ((t.buckets.drop s).map (fun b => b.elems)).flatten

theorem tail_entries_zero {V : Type} (t : HashTable V) :
    HashTable_entries t = tail_entries t 0 := rfl

theorem tail_entries_past_end {V : Type} (t : HashTable V) (s : Nat)
    (h : t.buckets.length ≤ s) : tail_entries t s = [] := by
  rw [tail_entries, List.drop_eq_nil_of_le h]
  rfl

/-- Skipping the empty buckets between `s` and the first non-empty bucket `j`. -/
theorem tail_entries_skip {V : Type} (t : HashTable V) : ∀ (d s j : Nat), j = s + d →
    ∀ hj : j < t.buckets.length,
    (∀ k, s ≤ k → k < j → ∀ bk, t.buckets.get? k = some bk → bk.elems = []) →
    tail_entries t s = (t.buckets.get ⟨j, hj⟩).elems ++ tail_entries t (j + 1)
  | 0, s, j, heq, hj, _ => by
    have hsj : s = j := by omega
    subst hsj
    rw [tail_entries, tail_entries, sg_drop_eq_get_cons t.buckets s hj]
    simp only [List.map_cons, List.flatten_cons]
  | d + 1, s, j, heq, hj, hemp => by
    have hs : s < t.buckets.length := by omega
    have ih := tail_entries_skip t d (s + 1) j (by omega) hj
      (fun k hk1 hk2 bk hbk => hemp k (by omega) hk2 bk hbk)
    rw [tail_entries, sg_drop_eq_get_cons t.buckets s hs]
    simp only [List.map_cons, List.flatten_cons]
    have hempty : (t.buckets.get ⟨s, hs⟩).elems = [] := by
      apply hemp s (Nat.le_refl s) (by omega)
      exact List.get?_eq_get hs
    rw [hempty, List.nil_append]
    exact ih

/-- If no bucket from `s` onward is non-empty, there are no entries there. -/
theorem tail_entries_nil {V : Type} (t : HashTable V) (s : Nat)
    (h : ∀ k, s ≤ k → ∀ bk, t.buckets.get? k = some bk → bk.elems = []) :
    tail_entries t s = [] := by
  rw [tail_entries]
  apply sg_flatten_nil
  intro x hx
  simp only [List.mem_map] at hx
  obtain ⟨b, hb, rfl⟩ := hx
  obtain ⟨i, hgi⟩ := List.mem_iff_get.mp hb
  have : t.buckets.get? (s + i.1) = some b := by
    rw [← List.get?_drop]
    rw [List.get?_eq_get i.2, hgi]
  exact h (s + i.1) (by omega) b this

theorem num_ne_zero_of_bucket_nonempty {V : Type} {t : HashTable V} (hwf : TableWF t)
    {b : Nat} (hb : b < t.buckets.length)
    (hne : (t.buckets.get ⟨b, hb⟩).elems ≠ []) : t.num_elems ≠ 0 := by
  obtain ⟨-, -, hcount, -, -⟩ := hwf
  have hlen : 1 ≤ (t.buckets.get ⟨b, hb⟩).elems.length := by
    cases hel : (t.buckets.get ⟨b, hb⟩).elems with
    | nil => exact absurd hel hne
    | cons x r => simp
  have hle := sg_le_sum t.buckets (fun b => b.elems.length) b hb
  rw [hcount]
  simp only at hle
  omega

/-! ### Stepping a positioned cursor -/

theorem is_valid_positioned {V : Type} {t : HashTable V} (hnum : t.num_elems ≠ 0)
    (cur : Option Nat) (b : Nat) :
    HTIterator_is_valid (⟨some cur, some t, some b⟩ : HTIterator V) = some true := by
  simp [HTIterator_is_valid, hnum]

theorem get_positioned {V : Type} {t : HashTable V} (hnum : t.num_elems ≠ 0)
    {b c : Nat} {bucket : LinkedList (HTEntry V)}
    (hbk : t.buckets.get? b = some bucket) {e : HTEntry V}
    (hge : bucket.elems.get? c = some e) :
    HTIterator_get (⟨some (some c), some t, some b⟩ : HTIterator V) =
      some (some (e.key, e.key.length, e.value)) := by
  rw [HTIterator_get, is_valid_positioned hnum]
  simp only [hbk, hge]

theorem next_within {V : Type} {t : HashTable V} (hnum : t.num_elems ≠ 0)
    {b c : Nat} {bucket : LinkedList (HTEntry V)}
    (hbk : t.buckets.get? b = some bucket) (hlt : c + 1 < bucket.elems.length) :
    HTIterator_next (⟨some (some c), some t, some b⟩ : HTIterator V) =
      some (true, ⟨some (some (c + 1)), some t, some b⟩) := by
  rw [HTIterator_next, is_valid_positioned hnum]
  simp only [hbk, hlt, if_true]

theorem next_new_bucket {V : Type} {t : HashTable V} (hnum : t.num_elems ≠ 0)
    {b c : Nat} {bucket : LinkedList (HTEntry V)}
    (hbk : t.buckets.get? b = some bucket) (hlt : ¬ c + 1 < bucket.elems.length)
    {j : Nat} (hfnb : first_nonempty_from t.buckets (b + 1) = some j) :
    HTIterator_next (⟨some (some c), some t, some b⟩ : HTIterator V) =
      some (true, ⟨some (some 0), some t, some j⟩) := by
  rw [HTIterator_next, is_valid_positioned hnum]
  simp only [hbk, hlt, if_false, hfnb]

theorem next_exhausted {V : Type} {t : HashTable V} (hnum : t.num_elems ≠ 0)
    {b c : Nat} {bucket : LinkedList (HTEntry V)}
    (hbk : t.buckets.get? b = some bucket) (hlt : ¬ c + 1 < bucket.elems.length)
    (hfnb : first_nonempty_from t.buckets (b + 1) = none) :
    HTIterator_next (⟨some (some c), some t, some b⟩ : HTIterator V) =
      some (false, ⟨none, some t, some (t.buckets.length - 1)⟩) := by
  rw [HTIterator_next, is_valid_positioned hnum]
  simp only [hbk, hlt, if_false, hfnb]

theorem is_valid_nulliter {V : Type} (t : HashTable V) (bidx : Option Nat) :
    HTIterator_is_valid (⟨none, some t, bidx⟩ : HTIterator V) = some false := by
  rw [HTIterator_is_valid]
  by_cases h : t.num_elems = 0 <;> simp [h]


theorem traverse_step_within {V : Type} {t : HashTable V} (hnum : t.num_elems ≠ 0)
    {b c : Nat} {bucket : LinkedList (HTEntry V)} (hbk : t.buckets.get? b = some bucket)
    {e : HTEntry V} (hge : bucket.elems.get? c = some e)
    (hcl : c + 1 < bucket.elems.length) (fuel : Nat) :
    HTIterator_traverse (fuel + 1) (⟨some (some c), some t, some b⟩ : HTIterator V) =
      match HTIterator_traverse fuel
          (⟨some (some (c + 1)), some t, some b⟩ : HTIterator V) with
      | none => none
      | some rest => some ((b, e.key, e.key.length, e.value) :: rest) := by
  simp only [HTIterator_traverse, is_valid_positioned hnum,
    get_positioned hnum hbk hge, next_within hnum hbk hcl]

theorem traverse_step_new_bucket {V : Type} {t : HashTable V} (hnum : t.num_elems ≠ 0)
    {b c : Nat} {bucket : LinkedList (HTEntry V)} (hbk : t.buckets.get? b = some bucket)
    {e : HTEntry V} (hge : bucket.elems.get? c = some e)
    (hcl : ¬ c + 1 < bucket.elems.length) {j : Nat}
    (hfnb : first_nonempty_from t.buckets (b + 1) = some j) (fuel : Nat) :
    HTIterator_traverse (fuel + 1) (⟨some (some c), some t, some b⟩ : HTIterator V) =
      match HTIterator_traverse fuel
          (⟨some (some 0), some t, some j⟩ : HTIterator V) with
      | none => none
      | some rest => some ((b, e.key, e.key.length, e.value) :: rest) := by
  simp only [HTIterator_traverse, is_valid_positioned hnum,
    get_positioned hnum hbk hge, next_new_bucket hnum hbk hcl hfnb]

theorem traverse_step_exhausted {V : Type} {t : HashTable V} (hnum : t.num_elems ≠ 0)
    {b c : Nat} {bucket : LinkedList (HTEntry V)} (hbk : t.buckets.get? b = some bucket)
    {e : HTEntry V} (hge : bucket.elems.get? c = some e)
    (hcl : ¬ c + 1 < bucket.elems.length)
    (hfnb : first_nonempty_from t.buckets (b + 1) = none) (fuel : Nat) :
    HTIterator_traverse (fuel + 1) (⟨some (some c), some t, some b⟩ : HTIterator V) =
      match HTIterator_traverse fuel
          (⟨none, some t, some (t.buckets.length - 1)⟩ : HTIterator V) with
      | none => none
      | some rest => some ((b, e.key, e.key.length, e.value) :: rest) := by
  simp only [HTIterator_traverse, is_valid_positioned hnum,
    get_positioned hnum hbk hge, next_exhausted hnum hbk hcl hfnb]

theorem traverse_nulliter {V : Type} (t : HashTable V) (bidx : Option Nat) (fuel : Nat) :
    HTIterator_traverse (fuel + 1) (⟨none, some t, bidx⟩ : HTIterator V) = some [] := by
  simp only [HTIterator_traverse, is_valid_nulliter]

/-- The read-only loop, from a cursor parked on entry `c` of bucket `b`,
visits the rest of bucket `b` and then every entry of the later buckets, in
order, with non-decreasing bucket indices that never fall below `b`. -/
theorem traverse_loop {V : Type} (n : Nat) : ∀ (t : HashTable V) (b c : Nat)
    (hwf : TableWF t) (hb : b < t.buckets.length)
    (hc : c < (t.buckets.get ⟨b, hb⟩).elems.length),
    ((t.buckets.get ⟨b, hb⟩).elems.drop c ++ tail_entries t (b + 1)).length = n →
    ∃ seq, HTIterator_traverse (n + 1) (⟨some (some c), some t, some b⟩ : HTIterator V) =
        some seq ∧
      seq.map Prod.snd =
        ((t.buckets.get ⟨b, hb⟩).elems.drop c ++ tail_entries t (b + 1)).map
          (fun e => (e.key, e.key.length, e.value)) ∧
      (∀ p ∈ seq, b ≤ p.1) ∧
      List.Pairwise (fun x y : Nat => x ≤ y) (seq.map Prod.fst) := by
  induction n using Nat.strong_induction_on with
  | _ n ih =>
    intro t b c hwf hb hc hlen
    cases n with
    | zero =>
      exfalso
      simp only [List.length_append, List.length_drop] at hlen
      omega
    | succ m =>
      have hnum : t.num_elems ≠ 0 := by
        apply num_ne_zero_of_bucket_nonempty hwf hb
        intro hcontra
        rw [hcontra] at hc
        simp at hc
      have hbk : t.buckets.get? b = some (t.buckets.get ⟨b, hb⟩) := List.get?_eq_get hb
      have hge : (t.buckets.get ⟨b, hb⟩).elems.get? c =
          some ((t.buckets.get ⟨b, hb⟩).elems.get ⟨c, hc⟩) := List.get?_eq_get hc
      have hdropc := sg_drop_eq_get_cons (t.buckets.get ⟨b, hb⟩).elems c hc
      by_cases hcl : c + 1 < (t.buckets.get ⟨b, hb⟩).elems.length
      · rw [traverse_step_within hnum hbk hge hcl (m + 1)]
        have hlen' : ((t.buckets.get ⟨b, hb⟩).elems.drop (c + 1) ++
            tail_entries t (b + 1)).length = m := by
          rw [hdropc] at hlen
          simp only [List.length_append, List.length_cons, List.length_drop] at hlen ⊢
          omega
        obtain ⟨seq', hts, hmap, hbound, hpair⟩ :=
          ih m (by omega) t b (c + 1) hwf hb hcl hlen'
        simp only [hts]
        refine ⟨(b, ((t.buckets.get ⟨b, hb⟩).elems.get ⟨c, hc⟩).key,
          ((t.buckets.get ⟨b, hb⟩).elems.get ⟨c, hc⟩).key.length,
          ((t.buckets.get ⟨b, hb⟩).elems.get ⟨c, hc⟩).value) :: seq', rfl, ?_, ?_, ?_⟩
        · rw [hdropc]
          simp only [List.map_cons, List.cons_append, List.map_cons]
          rw [hmap]
        · intro p hp
          rcases List.mem_cons.mp hp with hp | hp
          · rw [hp]
          · exact hbound p hp
        · simp only [List.map_cons]
          rw [List.pairwise_cons]
          exact ⟨fun y hy => by
            simp only [List.mem_map] at hy
            obtain ⟨p, hp, rfl⟩ := hy
            exact hbound p hp, hpair⟩
      · have hdrop1 : (t.buckets.get ⟨b, hb⟩).elems.drop (c + 1) = [] :=
          List.drop_eq_nil_of_le (by omega)
        have hR : (t.buckets.get ⟨b, hb⟩).elems.drop c ++ tail_entries t (b + 1) =
            (t.buckets.get ⟨b, hb⟩).elems.get ⟨c, hc⟩ :: tail_entries t (b + 1) := by
          rw [hdropc, hdrop1]
          rfl
        cases hfnb : first_nonempty_from t.buckets (b + 1) with
        | some j =>
          obtain ⟨hbj, hjlen, hjne, hjemp⟩ := first_nonempty_from_some _ _ _ hfnb
          rw [traverse_step_new_bucket hnum hbk hge hcl hfnb (m + 1)]
          have hjne' : (t.buckets.get ⟨j, hjlen⟩).elems ≠ [] :=
            hjne _ (List.get?_eq_get hjlen)
          have hj0 : 0 < (t.buckets.get ⟨j, hjlen⟩).elems.length := by
            cases hel : (t.buckets.get ⟨j, hjlen⟩).elems with
            | nil => exact absurd hel hjne'
            | cons x r => simp
          have hskip := tail_entries_skip t (j - (b + 1)) (b + 1) j (by omega) hjlen hjemp
          have hlenj : ((t.buckets.get ⟨j, hjlen⟩).elems.drop 0 ++
              tail_entries t (j + 1)).length = m := by
            rw [hR, hskip] at hlen
            simp only [List.length_append, List.length_cons, List.length_drop] at hlen ⊢
            omega
          obtain ⟨seq', hts, hmap, hbound, hpair⟩ :=
            ih m (by omega) t j 0 hwf hjlen hj0 hlenj
          simp only [hts]
          refine ⟨(b, ((t.buckets.get ⟨b, hb⟩).elems.get ⟨c, hc⟩).key,
            ((t.buckets.get ⟨b, hb⟩).elems.get ⟨c, hc⟩).key.length,
            ((t.buckets.get ⟨b, hb⟩).elems.get ⟨c, hc⟩).value) :: seq', rfl, ?_, ?_, ?_⟩
          · rw [hR, hskip]
            simp only [List.map_cons]
            rw [hmap]
            simp
          · intro p hp
            rcases List.mem_cons.mp hp with hp | hp
            · rw [hp]
            · exact Nat.le_trans (by omega) (hbound p hp)
          · simp only [List.map_cons]
            rw [List.pairwise_cons]
            exact ⟨fun y hy => by
              simp only [List.mem_map] at hy
              obtain ⟨p, hp, rfl⟩ := hy
              exact Nat.le_trans (by omega) (hbound p hp), hpair⟩
        | none =>
          rw [traverse_step_exhausted hnum hbk hge hcl hfnb (m + 1)]
          have hnil := tail_entries_nil t (b + 1) (first_nonempty_from_none _ _ hfnb)
          have hm0 : m = 0 := by
            rw [hR, hnil] at hlen
            simpa using hlen
          subst hm0
          rw [traverse_nulliter t (some (t.buckets.length - 1)) 0]
          refine ⟨[(b, ((t.buckets.get ⟨b, hb⟩).elems.get ⟨c, hc⟩).key,
            ((t.buckets.get ⟨b, hb⟩).elems.get ⟨c, hc⟩).key.length,
            ((t.buckets.get ⟨b, hb⟩).elems.get ⟨c, hc⟩).value)], rfl, ?_, ?_, ?_⟩
          · rw [hR, hnil]
            simp
          · intro p hp
            rcases List.mem_cons.mp hp with hp | hp
            · rw [hp]
            · simp at hp
          · simp

/-- Claim C4 (amended to tables holding at least one entry; for zero entries
see the counterexample — the loop touches uninitialised cursor state): the
cursor iteration (allocate, then next until invalid) visits every entry of
the table exactly once, whatever buckets the keys hash to; the visited keys
are pairwise distinct, and the bucket index is non-decreasing along the
traversal. -/
theorem C4_full_coverage {V : Type} (t : HashTable V) (hwf : TableWF t)
    (hne : HashTable_entries t ≠ []) :
    ∃ it₀ seq, HTIterator_allocate t = some it₀ ∧
      HTIterator_traverse ((HashTable_entries t).length + 1) it₀ = some seq ∧
      seq.map Prod.snd =
        (HashTable_entries t).map (fun e => (e.key, e.key.length, e.value)) ∧
      ((HashTable_entries t).map (fun e => e.key)).Nodup ∧
      List.Pairwise (fun x y : Nat => x ≤ y) (seq.map Prod.fst) := by
  have hnum : t.num_elems ≠ 0 := by
    have hlen := entries_length_eq_count hwf
    intro hc
    rw [hc] at hlen
    have hz : (HashTable_entries t).length = 0 := by omega
    exact hne (List.length_eq_zero.mp hz)
  cases hfnb : first_nonempty_from t.buckets 0 with
  | none =>
    exfalso
    have hemp := first_nonempty_from_none _ _ hfnb
    refine hne ?_
    rw [tail_entries_zero]
    exact tail_entries_nil t 0 (fun k hk => hemp k hk)
  | some b =>
    obtain ⟨-, hblen, hbne, hbemp⟩ := first_nonempty_from_some _ _ _ hfnb
    have hallocate : HTIterator_allocate t = some ⟨some (some 0), some t, some b⟩ := by
      rw [HTIterator_allocate, if_neg hnum, hfnb]
    have hbneq : (t.buckets.get ⟨b, hblen⟩).elems ≠ [] :=
      hbne _ (List.get?_eq_get hblen)
    have hb0 : 0 < (t.buckets.get ⟨b, hblen⟩).elems.length := by
      cases hel : (t.buckets.get ⟨b, hblen⟩).elems with
      | nil => exact absurd hel hbneq
      | cons x r => simp
    have hent : HashTable_entries t =
        (t.buckets.get ⟨b, hblen⟩).elems.drop 0 ++ tail_entries t (b + 1) := by
      rw [tail_entries_zero,
        tail_entries_skip t b 0 b (by omega) hblen
          (fun k hk1 hk2 => hbemp k (by omega) hk2)]
      rfl
    obtain ⟨seq, hts, hmap, hbound, hpair⟩ :=
      traverse_loop (HashTable_entries t).length t b 0 hwf hblen hb0
        (by rw [← hent])
    refine ⟨⟨some (some 0), some t, some b⟩, seq, hallocate, hts, ?_,
      entries_keys_nodup hwf, hpair⟩
    rw [hmap, ← hent]

/-- Witness for C4 at a concrete one-entry table. -/
theorem C4_full_coverage_witness :
    TableWF exampleTablePresent ∧ HashTable_entries exampleTablePresent ≠ [] ∧
    (∃ it₀ seq, HTIterator_allocate exampleTablePresent = some it₀ ∧
      HTIterator_traverse ((HashTable_entries exampleTablePresent).length + 1) it₀ =
        some seq ∧
      seq.map Prod.snd =
        (HashTable_entries exampleTablePresent).map
          (fun e => (e.key, e.key.length, e.value)) ∧
      ((HashTable_entries exampleTablePresent).map (fun e => e.key)).Nodup ∧
      List.Pairwise (fun x y : Nat => x ≤ y) (seq.map Prod.fst)) :=
  ⟨by decide, by decide,
    C4_full_coverage exampleTablePresent (by decide) (by decide)⟩

/-! ### Destructive iteration -/

/-- Removing by the stored key of the entry at the head of bucket `b`:
the lookup re-hashes the stored key, lands in the same bucket, matches the
head entry first, and detaches exactly it. -/
theorem remove_head_of_bucket {V : Type} {t : HashTable V} (hwf : TableWF t)
    {b : Nat} (hb : b < t.buckets.length)
    {e : HTEntry V} {rest : List (HTEntry V)}
    (helems : (t.buckets.get ⟨b, hb⟩).elems = e :: rest)
    (hkey : e.key ≠ []) :
    HashTable_remove t e.key e.key.length true =
      some (true, some e.value,
        ⟨t.buckets.set b ⟨rest, (t.buckets.get ⟨b, hb⟩).num_elems - 1⟩,
          t.num_elems - 1⟩) ∧
    HashTable_lookup t e.key e.key.length = some (some (b, 0)) := by
  obtain ⟨hpos, hlwf, hcount, hplaced, hnodup⟩ := hwf
  have hnorm := normalizeKey_stored e.key hkey
  have hein : e ∈ (t.buckets.get ⟨b, hb⟩).elems := by
    rw [helems]
    exact List.mem_cons_self _ _
  have hp := hplaced b hb e hein
  have hmod : FNV1a_64bit e.key % t.buckets.length = b := by
    rw [← hp.1]
    exact hp.2
  have hbk : t.buckets.get? b = some (t.buckets.get ⟨b, hb⟩) := List.get?_eq_get hb
  have hmatch : entry_matches e (FNV1a_64bit e.key) e.key = true := by
    rw [entry_matches_iff]
    exact ⟨hp.1, rfl⟩
  have hadv : advance_to_target (t.buckets.get ⟨b, hb⟩).elems
      (FNV1a_64bit e.key) e.key = some 0 := by
    rw [helems]
    exact att_cons_true _ _ _ _ hmatch
  have hblwf : LWF (t.buckets.get ⟨b, hb⟩) := hlwf _ (List.get?_mem hbk)
  have hi0 : 0 < (t.buckets.get ⟨b, hb⟩).elems.length := by
    rw [helems]
    simp
  obtain ⟨cur, hrem⟩ := ll_remove_list_shape (t.buckets.get ⟨b, hb⟩) 0 hblwf hi0
  have hget0 : (t.buckets.get ⟨b, hb⟩).elems.get ⟨0, hi0⟩ = e := by
    have h1 := List.get?_eq_get hi0
    have h2 : (t.buckets.get ⟨b, hb⟩).elems.get? 0 = some e := by
      rw [helems]
      rfl
    rw [h1] at h2
    exact Option.some.injEq _ _ ▸ h2
  have herase : (t.buckets.get ⟨b, hb⟩).elems.eraseIdx 0 = rest := by
    rw [helems]
    rfl
  rw [hget0, herase] at hrem
  constructor
  · simp only [HashTable_remove, hnorm, hmod, hbk, hadv, hrem, if_true]
  · simp only [HashTable_lookup, hnorm, hmod, hbk, hadv]

theorem iterator_remove_step_within {V : Type} {t : HashTable V} (hwf : TableWF t)
    {b : Nat} (hb : b < t.buckets.length)
    {e : HTEntry V} {rest : List (HTEntry V)}
    (helems : (t.buckets.get ⟨b, hb⟩).elems = e :: rest)
    (hkey : e.key ≠ []) (hrest : rest ≠ []) :
    HTIterator_remove (⟨some (some 0), some t, some b⟩ : HTIterator V) true =
      some (some ((e.key, e.key.length), some e.value,
        (⟨some (some 0),
          some ⟨t.buckets.set b ⟨rest, (t.buckets.get ⟨b, hb⟩).num_elems - 1⟩,
            t.num_elems - 1⟩,
          some b⟩ : HTIterator V))) := by
  have hnum : t.num_elems ≠ 0 :=
    num_ne_zero_of_bucket_nonempty hwf hb (by rw [helems]; simp)
  have hbk : t.buckets.get? b = some (t.buckets.get ⟨b, hb⟩) := List.get?_eq_get hb
  have hge0 : (t.buckets.get ⟨b, hb⟩).elems.get? 0 = some e := by
    rw [helems]
    rfl
  have hlt1 : 0 + 1 < (t.buckets.get ⟨b, hb⟩).elems.length := by
    rw [helems]
    cases hr : rest with
    | nil => exact absurd hr hrest
    | cons y r => simp
  obtain ⟨hremove, hlookup⟩ := remove_head_of_bucket hwf hb helems hkey
  simp only [HTIterator_remove, is_valid_positioned hnum,
    get_positioned hnum hbk hge0, next_within hnum hbk hlt1, hremove, hlookup]
  simp

theorem iterator_remove_step_new_bucket {V : Type} {t : HashTable V} (hwf : TableWF t)
    {b : Nat} (hb : b < t.buckets.length)
    {e : HTEntry V} (helems : (t.buckets.get ⟨b, hb⟩).elems = [e])
    (hkey : e.key ≠ []) {j : Nat}
    (hfnb : first_nonempty_from t.buckets (b + 1) = some j) :
    HTIterator_remove (⟨some (some 0), some t, some b⟩ : HTIterator V) true =
      some (some ((e.key, e.key.length), some e.value,
        (⟨some (some 0),
          some ⟨t.buckets.set b ⟨[], (t.buckets.get ⟨b, hb⟩).num_elems - 1⟩,
            t.num_elems - 1⟩,
          some j⟩ : HTIterator V))) := by
  have hnum : t.num_elems ≠ 0 :=
    num_ne_zero_of_bucket_nonempty hwf hb (by rw [helems]; simp)
  have hbk : t.buckets.get? b = some (t.buckets.get ⟨b, hb⟩) := List.get?_eq_get hb
  have hge0 : (t.buckets.get ⟨b, hb⟩).elems.get? 0 = some e := by
    rw [helems]
    rfl
  have hlt1 : ¬ 0 + 1 < (t.buckets.get ⟨b, hb⟩).elems.length := by
    rw [helems]
    simp
  obtain ⟨hremove, hlookup⟩ := remove_head_of_bucket hwf hb helems hkey
  simp only [HTIterator_remove, is_valid_positioned hnum,
    get_positioned hnum hbk hge0, next_new_bucket hnum hbk hlt1 hfnb, hremove, hlookup]
  simp

theorem iterator_remove_step_exhausted {V : Type} {t : HashTable V} (hwf : TableWF t)
    {b : Nat} (hb : b < t.buckets.length)
    {e : HTEntry V} (helems : (t.buckets.get ⟨b, hb⟩).elems = [e])
    (hkey : e.key ≠ [])
    (hfnb : first_nonempty_from t.buckets (b + 1) = none) :
    HTIterator_remove (⟨some (some 0), some t, some b⟩ : HTIterator V) true =
      some (some ((e.key, e.key.length), some e.value,
        (⟨none,
          some ⟨t.buckets.set b ⟨[], (t.buckets.get ⟨b, hb⟩).num_elems - 1⟩,
            t.num_elems - 1⟩,
          some (t.buckets.length - 1)⟩ : HTIterator V))) := by
  have hnum : t.num_elems ≠ 0 :=
    num_ne_zero_of_bucket_nonempty hwf hb (by rw [helems]; simp)
  have hbk : t.buckets.get? b = some (t.buckets.get ⟨b, hb⟩) := List.get?_eq_get hb
  have hge0 : (t.buckets.get ⟨b, hb⟩).elems.get? 0 = some e := by
    rw [helems]
    rfl
  have hlt1 : ¬ 0 + 1 < (t.buckets.get ⟨b, hb⟩).elems.length := by
    rw [helems]
    simp
  obtain ⟨hremove, hlookup⟩ := remove_head_of_bucket hwf hb helems hkey
  simp only [HTIterator_remove, is_valid_positioned hnum,
    get_positioned hnum hbk hge0, next_exhausted hnum hbk hlt1 hfnb, hremove, hlookup]
  simp

theorem drain_step {V : Type} (fuel : Nat) (it : HTIterator V)
    (out : List Byte × Nat) (w : Option V) (it' : HTIterator V)
    (h : HTIterator_remove it true = some (some (out, w, it'))) :
    HTIterator_drain (fuel + 1) it =
      match HTIterator_drain fuel it' with
      | none => none
      | some (rest, itf) => some ((out, w) :: rest, itf) := by
  simp only [HTIterator_drain, h]

theorem drain_invalid {V : Type} (t : HashTable V) (bidx : Option Nat) (fuel : Nat) :
    HTIterator_drain (fuel + 1) (⟨none, some t, bidx⟩ : HTIterator V) =
      some ([], ⟨none, some t, bidx⟩) := by
  simp only [HTIterator_drain, HTIterator_remove, is_valid_nulliter]

theorem entries_after_head_removal {V : Type} {t : HashTable V}
    {b : Nat} (hb : b < t.buckets.length)
    (hemp : ∀ k, k < b → ∀ bk, t.buckets.get? k = some bk → bk.elems = [])
    {e : HTEntry V} {rest : List (HTEntry V)}
    (helems : (t.buckets.get ⟨b, hb⟩).elems = e :: rest) (cnt : Int) (m : Int) :
    HashTable_entries (⟨t.buckets.set b ⟨rest, cnt⟩, m⟩ : HashTable V) =
      rest ++ tail_entries t (b + 1) ∧
    HashTable_entries t = e :: (rest ++ tail_entries t (b + 1)) := by
  constructor
  · have hb' : b < (t.buckets.set b (⟨rest, cnt⟩ : LinkedList (HTEntry V))).length := by
      rw [List.length_set]
      exact hb
    have hskip := tail_entries_skip (⟨t.buckets.set b ⟨rest, cnt⟩, m⟩ : HashTable V)
      b 0 b (by omega) hb'
      (fun k hk1 hk2 bk hbk => by
        rw [sg_get?_set_ne t.buckets b k _ (by omega)] at hbk
        exact hemp k hk2 bk hbk)
    rw [tail_entries_zero, hskip]
    have hgetb : (t.buckets.set b (⟨rest, cnt⟩ : LinkedList (HTEntry V))).get ⟨b, hb'⟩ =
        ⟨rest, cnt⟩ := by
      have h1 := List.get?_eq_get hb'
      rw [sg_get?_set_eq t.buckets b _ hb] at h1
      exact (Option.some.injEq _ _ ▸ h1.symm)
    rw [hgetb]
    have htl : tail_entries (⟨t.buckets.set b ⟨rest, cnt⟩, m⟩ : HashTable V) (b + 1) =
        tail_entries t (b + 1) := by
      rw [tail_entries, tail_entries]
      rw [show (⟨t.buckets.set b ⟨rest, cnt⟩, m⟩ : HashTable V).buckets =
        t.buckets.set b ⟨rest, cnt⟩ from rfl]
      rw [sg_drop_set t.buckets b _ (b + 1) (by omega)]
    rw [htl]
  · rw [tail_entries_zero,
      tail_entries_skip t b 0 b (by omega) hb (fun k hk1 hk2 => hemp k hk2), helems]
    rfl

/-- The destructive loop, from a cursor parked on the head of bucket `b` with
all earlier buckets already empty, removes every remaining entry in order and
ends with an invalid cursor over the emptied table. -/
theorem drain_loop {V : Type} (n : Nat) : ∀ (t : HashTable V) (b : Nat)
    (hwf : TableWF t) (hb : b < t.buckets.length),
    (∀ k, k < b → ∀ bk, t.buckets.get? k = some bk → bk.elems = []) →
    (t.buckets.get ⟨b, hb⟩).elems ≠ [] →
    (∀ e ∈ HashTable_entries t, e.key ≠ []) →
    (HashTable_entries t).length = n →
    ∃ itf tf, HTIterator_drain (n + 1) (⟨some (some 0), some t, some b⟩ : HTIterator V) =
        some ((HashTable_entries t).map (fun e => ((e.key, e.key.length), some e.value)),
          itf) ∧
      itf.table = some tf ∧ tf.num_elems = 0 ∧ 0 < tf.buckets.length ∧
      ∀ bk ∈ tf.buckets, bk.elems = [] := by
  induction n using Nat.strong_induction_on with
  | _ n ih =>
    intro t b hwf hb hemp hbne hkeys hlen
    obtain ⟨e, rest, helems⟩ : ∃ e rest, (t.buckets.get ⟨b, hb⟩).elems = e :: rest := by
      cases hel : (t.buckets.get ⟨b, hb⟩).elems with
      | nil => exact absurd hel hbne
      | cons e rest => exact ⟨e, rest, rfl⟩
    obtain ⟨hent', hent⟩ := entries_after_head_removal hb hemp helems
      ((t.buckets.get ⟨b, hb⟩).num_elems - 1) (t.num_elems - 1)
    cases n with
    | zero =>
      exfalso
      rw [hent] at hlen
      simp at hlen
    | succ m =>
      have hkey : e.key ≠ [] := by
        apply hkeys
        rw [hent]
        exact List.mem_cons_self _ _
      have hlenm : (HashTable_entries
          (⟨t.buckets.set b ⟨rest, (t.buckets.get ⟨b, hb⟩).num_elems - 1⟩,
            t.num_elems - 1⟩ : HashTable V)).length = m := by
        rw [hent']
        rw [hent] at hlen
        simpa using hlen
      have hremove := (remove_head_of_bucket hwf hb helems hkey).1
      have hwf' : TableWF (⟨t.buckets.set b
          ⟨rest, (t.buckets.get ⟨b, hb⟩).num_elems - 1⟩,
          t.num_elems - 1⟩ : HashTable V) :=
        remove_TableWF hwf hremove
      have hkeys' : ∀ e' ∈ HashTable_entries
          (⟨t.buckets.set b ⟨rest, (t.buckets.get ⟨b, hb⟩).num_elems - 1⟩,
            t.num_elems - 1⟩ : HashTable V), e'.key ≠ [] := by
        intro e' he'
        apply hkeys
        rw [hent]
        rw [hent'] at he'
        exact List.mem_cons_of_mem _ he'
      have hmap : (HashTable_entries t).map
          (fun e => ((e.key, e.key.length), some e.value)) =
          ((e.key, e.key.length), some e.value) ::
          (HashTable_entries
            (⟨t.buckets.set b ⟨rest, (t.buckets.get ⟨b, hb⟩).num_elems - 1⟩,
              t.num_elems - 1⟩ : HashTable V)).map
            (fun e => ((e.key, e.key.length), some e.value)) := by
        rw [hent, hent']
        rfl
      have hb' : b < (t.buckets.set b
          (⟨rest, (t.buckets.get ⟨b, hb⟩).num_elems - 1⟩ :
            LinkedList (HTEntry V))).length := by
        rw [List.length_set]
        exact hb
      cases hrest : rest with
      | cons r1 r2 =>
        have hstep := iterator_remove_step_within hwf hb helems hkey
          (by rw [hrest]; simp)
        rw [drain_step (m + 1) _ _ _ _ hstep]
        have hbne' : ((t.buckets.set b
            ⟨rest, (t.buckets.get ⟨b, hb⟩).num_elems - 1⟩).get ⟨b, hb'⟩).elems ≠ [] := by
          have h1 := List.get?_eq_get hb'
          rw [sg_get?_set_eq t.buckets b _ hb] at h1
          rw [← Option.some.inj h1, hrest]
          simp
        have hemp' : ∀ k, k < b → ∀ bk,
            (t.buckets.set b
              ⟨rest, (t.buckets.get ⟨b, hb⟩).num_elems - 1⟩).get? k = some bk →
            bk.elems = [] := by
          intro k hk bk hbk
          rw [sg_get?_set_ne t.buckets b k _ (by omega)] at hbk
          exact hemp k hk bk hbk
        obtain ⟨itf, tf, hdrain', htf, hnum0, hposlen, hallemp⟩ :=
          ih m (by omega) _ b hwf' hb' hemp' hbne' hkeys' hlenm
        rw [hdrain', hmap]
        exact ⟨itf, tf, rfl, htf, hnum0, hposlen, hallemp⟩
      | nil =>
        subst hrest
        cases hfnb : first_nonempty_from t.buckets (b + 1) with
        | some j =>
          obtain ⟨hbj, hjlen, hjne, hjemp⟩ := first_nonempty_from_some _ _ _ hfnb
          have hstep := iterator_remove_step_new_bucket hwf hb helems hkey hfnb
          rw [drain_step (m + 1) _ _ _ _ hstep]
          have hjlen' : j < (t.buckets.set b
              (⟨[], (t.buckets.get ⟨b, hb⟩).num_elems - 1⟩ :
                LinkedList (HTEntry V))).length := by
            rw [List.length_set]
            exact hjlen
          have hbne' : ((t.buckets.set b
              ⟨[], (t.buckets.get ⟨b, hb⟩).num_elems - 1⟩).get ⟨j, hjlen'⟩).elems ≠ [] := by
            have h1 := List.get?_eq_get hjlen'
            rw [sg_get?_set_ne t.buckets b j _ (by omega)] at h1
            rw [List.get?_eq_get hjlen] at h1
            rw [← Option.some.inj h1]
            exact hjne _ (List.get?_eq_get hjlen)
          have hemp' : ∀ k, k < j → ∀ bk,
              (t.buckets.set b
                ⟨[], (t.buckets.get ⟨b, hb⟩).num_elems - 1⟩).get? k = some bk →
              bk.elems = [] := by
            intro k hk bk hbk
            by_cases hkb : k = b
            · subst hkb
              rw [sg_get?_set_eq t.buckets k _ hb] at hbk
              rw [← Option.some.inj hbk]
            · rw [sg_get?_set_ne t.buckets b k _ (fun hc => hkb hc.symm)] at hbk
              rcases Nat.lt_trichotomy k b with hlt | heq | hgt
              · exact hemp k hlt bk hbk
              · exact absurd heq hkb
              · exact hjemp k (by omega) (by omega) bk hbk
          obtain ⟨itf, tf, hdrain', htf, hnum0, hposlen, hallemp⟩ :=
            ih m (by omega) _ j hwf' hjlen' hemp' hbne' hkeys' hlenm
          rw [hdrain', hmap]
          exact ⟨itf, tf, rfl, htf, hnum0, hposlen, hallemp⟩
        | none =>
          have hstep := iterator_remove_step_exhausted hwf hb helems hkey hfnb
          rw [drain_step (m + 1) _ _ _ _ hstep]
          have hnil := tail_entries_nil t (b + 1) (first_nonempty_from_none _ _ hfnb)
          have hm0 : m = 0 := by
            rw [hent, hnil] at hlen
            simpa using hlen
          subst hm0
          rw [drain_invalid]
          have hnum0 : (⟨t.buckets.set b
              ⟨[], (t.buckets.get ⟨b, hb⟩).num_elems - 1⟩,
              t.num_elems - 1⟩ : HashTable V).num_elems = 0 := by
            have hcnt := entries_length_eq_count hwf'
            rw [hent', hnil] at hcnt
            simpa using hcnt
          refine ⟨⟨none, some ⟨t.buckets.set b
              ⟨[], (t.buckets.get ⟨b, hb⟩).num_elems - 1⟩,
              t.num_elems - 1⟩, some (t.buckets.length - 1)⟩,
            ⟨t.buckets.set b ⟨[], (t.buckets.get ⟨b, hb⟩).num_elems - 1⟩,
              t.num_elems - 1⟩, ?_, rfl, hnum0, ?_, ?_⟩
          · rw [hmap, hent', hnil]
            rfl
          · rw [show (⟨t.buckets.set b
              ⟨[], (t.buckets.get ⟨b, hb⟩).num_elems - 1⟩,
              t.num_elems - 1⟩ : HashTable V).buckets =
                t.buckets.set b ⟨[], (t.buckets.get ⟨b, hb⟩).num_elems - 1⟩ from rfl]
            rw [List.length_set]
            exact hwf.1
          · intro bk hbk
            obtain ⟨i, hgi⟩ := List.mem_iff_get.mp hbk
            have hilen : i.1 < t.buckets.length := by
              have := i.2
              simpa using this
            have hgi' : (t.buckets.set b
                ⟨[], (t.buckets.get ⟨b, hb⟩).num_elems - 1⟩).get? i.1 = some bk := by
              rw [List.get?_eq_get i.2, hgi]
            rcases Nat.lt_trichotomy i.1 b with hlt | heq | hgt
            · rw [sg_get?_set_ne t.buckets b i.1 _ (by omega)] at hgi'
              exact hemp i.1 hlt bk hgi'
            · rw [heq] at hgi'
              rw [sg_get?_set_eq t.buckets b _ hb] at hgi'
              rw [← Option.some.inj hgi']
            · rw [sg_get?_set_ne t.buckets b i.1 _ (by omega)] at hgi'
              exact first_nonempty_from_none _ _ hfnb i.1 (by omega) bk hgi'

/-- Claim C3 (amended to tables holding at least one entry, all of whose
stored keys are non-empty; see the counterexample for both excluded corners):
repeatedly calling the cursor's remove until it reports an invalid cursor
removes every entry exactly once, in traversal order — the drain output is
exactly the entry list; the loop stops because the cursor has become invalid;
afterwards the table's count (also through the public count operation) is 0
and a find on any originally present key returns not-found. -/
theorem C3_destructive_iteration {V : Type} (t : HashTable V) (hwf : TableWF t)
    (hne : HashTable_entries t ≠ [])
    (hkeys : ∀ e ∈ HashTable_entries t, e.key ≠ []) :
    ∃ it₀ itf tf, HTIterator_allocate t = some it₀ ∧
      HTIterator_drain ((HashTable_entries t).length + 1) it₀ =
        some ((HashTable_entries t).map (fun e => ((e.key, e.key.length), some e.value)),
          itf) ∧
      HTIterator_is_valid itf = some false ∧
      itf.table = some tf ∧ tf.num_elems = 0 ∧
      HashTable_num_elements (some tf) = 0 ∧
      (∀ e ∈ HashTable_entries t, HashTable_find tf e.key e.key.length = some none) := by
  have hnum : t.num_elems ≠ 0 := by
    have hlen := entries_length_eq_count hwf
    intro hc
    rw [hc] at hlen
    have hz : (HashTable_entries t).length = 0 := by omega
    exact hne (List.length_eq_zero.mp hz)
  cases hfnb : first_nonempty_from t.buckets 0 with
  | none =>
    exfalso
    have hemp := first_nonempty_from_none _ _ hfnb
    refine hne ?_
    rw [tail_entries_zero]
    exact tail_entries_nil t 0 (fun k hk => hemp k hk)
  | some b =>
    obtain ⟨-, hblen, hbne, hbemp⟩ := first_nonempty_from_some _ _ _ hfnb
    have hallocate : HTIterator_allocate t = some ⟨some (some 0), some t, some b⟩ := by
      rw [HTIterator_allocate, if_neg hnum, hfnb]
    have hbneq : (t.buckets.get ⟨b, hblen⟩).elems ≠ [] :=
      hbne _ (List.get?_eq_get hblen)
    obtain ⟨itf, tf, hdrain, htf, hnum0, hposlen, hallemp⟩ :=
      drain_loop (HashTable_entries t).length t b hwf hblen
        (fun k hk => hbemp k (by omega) hk) hbneq hkeys rfl
    have hvalid : HTIterator_is_valid itf = some false := by
      rw [HTIterator_is_valid, htf]
      simp [hnum0]
    have hcount0 : HashTable_num_elements (some tf) = 0 := by
      rw [HashTable_num_elements]
      exact hnum0
    refine ⟨⟨some (some 0), some t, some b⟩, itf, tf, hallocate, hdrain, hvalid, htf,
      hnum0, hcount0, ?_⟩
    intro e he
    have hkey := hkeys e he
    have hnorm := normalizeKey_stored e.key hkey
    have hbidx : FNV1a_64bit e.key % tf.buckets.length < tf.buckets.length :=
      Nat.mod_lt _ hposlen
    have hbk := List.get?_eq_get hbidx
    have hempbk : (tf.buckets.get ⟨_, hbidx⟩).elems = [] :=
      hallemp _ (List.get?_mem hbk)
    simp only [HashTable_find, hnorm, hbk, hempbk, advance_to_target]

/-- Witness for C3 at a concrete one-entry table with a non-empty key. -/
theorem C3_destructive_iteration_witness :
    TableWF exampleTablePresent ∧ HashTable_entries exampleTablePresent ≠ [] ∧
    (∀ e ∈ HashTable_entries exampleTablePresent, e.key ≠ []) ∧
    (∃ it₀ itf tf, HTIterator_allocate exampleTablePresent = some it₀ ∧
      HTIterator_drain ((HashTable_entries exampleTablePresent).length + 1) it₀ =
        some ((HashTable_entries exampleTablePresent).map
          (fun e => ((e.key, e.key.length), some e.value)), itf) ∧
      HTIterator_is_valid itf = some false ∧
      itf.table = some tf ∧ tf.num_elems = 0 ∧
      HashTable_num_elements (some tf) = 0 ∧
      (∀ e ∈ HashTable_entries exampleTablePresent,
        HashTable_find tf e.key e.key.length = some none)) :=
  ⟨by decide, by decide, by decide,
    C3_destructive_iteration exampleTablePresent (by decide) (by decide) (by decide)⟩
